import Mathlib

/-!
Verification of the techtree core library (`packages/core`): the schema data
model (`schema.ts`), the graph computation module (`graph.ts`:
`computeTechTree`, `calculateTiers`, `getNextTargets`, `canStartNode`,
`getAncestors`, `getDescendants`) and the parser/validator
(`parser.ts`: `parseTechTree`, `findDuplicates`).

JavaScript `Map` objects are embedded as association lists with
`Map.set`-style replace-or-append insertion and first-match lookup (keys are
unique by construction, so first-match equals JS lookup).  `Set` objects are
embedded as lists used only through membership and guarded insertion.  The
unbounded recursion of `calculateTiers`/`getAncestors`/`getDescendants` is
embedded with explicit fuel; the fuel `nodes.length + 1` is provably
sufficient (the visited/visiting sets bound the recursion depth), which is
part of what is verified below.  `console.warn` inside `calculateTiers` is
modelled by accumulating the warned node ids in the computation state.
-/

namespace Techtree

/-- The four node statuses of `NodeStatusSchema`
(`"completed" | "in-progress" | "planned" | "blocked"`). -/
inductive NodeStatus where
  | completed
  | inProgress
  | planned
  | blocked
deriving DecidableEq, Repr

/-- A tech-tree node, after schema validation (`TechNodeSchema`).  Numeric
fields (`tier`: positive integer, `devPoints`: non-negative integer) are
embedded as `Nat`; the schema's positivity constraint on `tier` appears as a
hypothesis where theorems need it. -/
structure TechNode where
  id : String
  name : String
  description : Option String := none
  repo : Option String := none
  tier : Option Nat := none
  status : NodeStatus := NodeStatus.planned
  prerequisites : List String := []
  devPoints : Option Nat := none
  blockedReason : Option String := none
  tags : List String := []
  subtree : Option String := none
deriving DecidableEq, Repr

/-- A complete tech tree (`TechTreeSchema`). -/
structure TechTree where
  name : String
  version : String := "1.0.0"
  description : Option String := none
  nodes : List TechNode
deriving DecidableEq, Repr

/-- A node enriched with computed properties (`ComputedTechNode`). -/
structure ComputedTechNode extends TechNode where
  computedTier : Nat
  dependents : List String
deriving DecidableEq, Repr

/-- A tree enriched with computed node properties (`ComputedTechTree`).
The `tiers : Map<number, ComputedTechNode[]>` field is an association list. -/
structure ComputedTechTree where
  name : String
  version : String
  description : Option String
  nodes : List ComputedTechNode
  tiers : List (Nat × List ComputedTechNode)
  totalDevPoints : Nat
  completedDevPoints : Nat
deriving DecidableEq, Repr

/-- First-match lookup in an association list (JS `Map.get`). -/
def alookup {κ β : Type} [DecidableEq κ] : List (κ × β) → κ → Option β
  | [], _ => none
  | (k, v) :: rest, key => if k = key then some v else alookup rest key

/-- Replace-or-append insertion (JS `Map.set`). -/
def aset {κ β : Type} [DecidableEq κ] : List (κ × β) → κ → β → List (κ × β)
  | [], key, val => [(key, val)]
  | (k, v) :: rest, key, val =>
      if k = key then (key, val) :: rest else (k, v) :: aset rest key val

/-- The `nodeMap` built by `computeTechTree` / `calculateTiers`:
for each node, `nodeMap.set(node.id, node)`. -/
def buildNodeMap (nodes : List TechNode) : List (String × TechNode) :=
  nodes.foldl (fun m n => aset m n.id n) []

/-- First loop of `computeTechTree`: `dependentsMap.set(node.id, [])`
for every node. -/
def seedDependents (nodes : List TechNode) : List (String × List String) :=
  nodes.foldl (fun m n => aset m n.id []) []

/-- One step of the second loop of `computeTechTree`:
`const deps = dependentsMap.get(prereq); if (deps) deps.push(node.id)`. -/
def pushDependent (m : List (String × List String)) (p : String)
    (childId : String) : List (String × List String) :=
  match alookup m p with
  | some ds => aset m p (ds ++ [childId])
  | none => m

/-- The dependents map of `computeTechTree` (reverse of prerequisites). -/
def buildDependentsMap (nodes : List TechNode) : List (String × List String) :=
  nodes.foldl
    (fun m n => n.prerequisites.foldl (fun m2 p => pushDependent m2 p n.id) m)
    (seedDependents nodes)

/-- State threaded through `calculateTiers`: the memo map `tiers`, the
in-progress set `visiting`, and the ids reported by `console.warn`
(cycle warnings). -/
structure TierState where
  tiers : List (String × Nat)
  visiting : List String
  warnings : List String
deriving DecidableEq, Repr

/-- The `for (const prereqId of node.prerequisites)` loop of `getTier`,
folding `max` over the recursive tier results; the recursive call is passed
in as `f`. -/
def getTierMax (f : String → TierState → Nat × TierState) :
    List String → Nat → TierState → Nat × TierState
  | [], acc, s => (acc, s)
  | p :: ps, acc, s =>
      let r := f p s
      getTierMax f ps (max acc r.1) r.2

/-- The inner recursive `getTier` of `calculateTiers`, with explicit fuel
bounding the recursion depth (the source recursion is unbounded; fuel
`nodes.length + 1` is proved sufficient below). -/
def getTier (nodeMap : List (String × TechNode)) :
    Nat → String → TierState → Nat × TierState
  | 0, _, s => (1, s)
  | fuel + 1, nodeId, s =>
    match alookup s.tiers nodeId with
    | some t => (t, s)
    | none =>
      match alookup nodeMap nodeId with
      | none => (1, s)
      | some node =>
        match node.tier with
        | some t => (t, { s with tiers := aset s.tiers nodeId t })
        | none =>
          if nodeId ∈ s.visiting then
            (1, { s with warnings := s.warnings ++ [nodeId] })
          else
            let s1 : TierState := { s with visiting := nodeId :: s.visiting }
            if node.prerequisites = [] then
              (1, { s1 with tiers := aset s1.tiers nodeId 1,
                            visiting := s1.visiting.erase nodeId })
            else
              let r := getTierMax (fun p st => getTier nodeMap fuel p st)
                         node.prerequisites 0 s1
              (r.1 + 1, { r.2 with tiers := aset r.2.tiers nodeId (r.1 + 1),
                                   visiting := r.2.visiting.erase nodeId })

/-- The empty initial state of `calculateTiers`. -/
def initialTierState : TierState := ⟨[], [], []⟩

/-- `calculateTiers(nodes, nodeMap)`: run `getTier` over every node id.
Returns the whole final state (the source returns the `tiers` map and emits
warnings through `console.warn`). -/
def calculateTiers (nodes : List TechNode)
    (nodeMap : List (String × TechNode)) : TierState :=
  nodes.foldl (fun s n => (getTier nodeMap (nodes.length + 1) n.id s).2)
    initialTierState

/-- Build one computed node: `{...node, computedTier: node.tier ??
tiers.get(node.id) ?? 1, dependents: dependentsMap.get(node.id) ?? []}`. -/
def computeNode (tiersMap : List (String × Nat))
    (depMap : List (String × List String)) (n : TechNode) : ComputedTechNode :=
  { n with
    computedTier := match n.tier with
      | some t => t
      | none => (alookup tiersMap n.id).getD 1
    dependents := (alookup depMap n.id).getD [] }

/-- Group computed nodes by tier (the `tierGroups` loop). -/
def tierGroupsOf (cnodes : List ComputedTechNode) :
    List (Nat × List ComputedTechNode) :=
  cnodes.foldl
    (fun g cn =>
      match alookup g cn.computedTier with
      | some l => aset g cn.computedTier (l ++ [cn])
      | none => aset g cn.computedTier [cn])
    []

/-- `computeTechTree(tree)`. -/
def computeTechTree (tree : TechTree) : ComputedTechTree :=
  let nodeMap := buildNodeMap tree.nodes
  let depMap := buildDependentsMap tree.nodes
  let st := calculateTiers tree.nodes nodeMap
  let computedNodes := tree.nodes.map (computeNode st.tiers depMap)
  { name := tree.name
    version := tree.version
    description := tree.description
    nodes := computedNodes
    tiers := tierGroupsOf computedNodes
    totalDevPoints := computedNodes.foldl (fun acc n => acc + n.devPoints.getD 0) 0
    completedDevPoints := computedNodes.foldl
      (fun acc n =>
        acc + (if n.status = NodeStatus.completed then n.devPoints.getD 0 else 0)) 0 }

/-- The cycle warnings emitted (via `console.warn`) while computing a tree. -/
def tierWarnings (tree : TechTree) : List String :=
  (calculateTiers tree.nodes (buildNodeMap tree.nodes)).warnings

/-- `getNextTargets(tree)`: nodes that are neither completed nor in-progress
and whose prerequisites are all completed. -/
def getNextTargets (tree : ComputedTechTree) : List ComputedTechNode :=
  let completedIds :=
    (tree.nodes.filter (fun n => n.status = NodeStatus.completed)).map
      (fun n => n.id)
  tree.nodes.filter (fun node =>
    if node.status = NodeStatus.completed ∨ node.status = NodeStatus.inProgress
    then false
    else node.prerequisites.all (fun p => decide (p ∈ completedIds)))

/-- `canStartNode(nodeId, tree)`. -/
def canStartNode (nodeId : String) (tree : ComputedTechTree) : Bool :=
  match tree.nodes.find? (fun n => decide (n.id = nodeId)) with
  | none => false
  | some node =>
    let completedIds :=
      (tree.nodes.filter (fun n => n.status = NodeStatus.completed)).map
        (fun n => n.id)
    node.prerequisites.all (fun p => decide (p ∈ completedIds))

/-- The node map `new Map(tree.nodes.map((n) => [n.id, n]))` built by
`getAncestors` / `getDescendants`. -/
def buildCNodeMap (tree : ComputedTechTree) :
    List (String × ComputedTechNode) :=
  tree.nodes.foldl (fun m n => aset m n.id n) []

/-- The `for (const prereq of ...)` loop of `traverse`: skip already-visited
ids, otherwise add and recurse (the recursive call is passed in as `f`). -/
def traverseFold (f : String → List String → List String) :
    List String → List String → List String
  | [], acc => acc
  | p :: ps, acc =>
      if p ∈ acc then traverseFold f ps acc
      else traverseFold f ps (f p (p :: acc))

/-- The inner recursive `traverse` of `getAncestors`/`getDescendants`,
parameterised by the followed edge field (`next`) and explicit fuel. -/
def traverseAcc (nodeMap : List (String × ComputedTechNode))
    (next : ComputedTechNode → List String) :
    Nat → String → List String → List String
  | 0, _, acc => acc
  | fuel + 1, nodeId, acc =>
    match alookup nodeMap nodeId with
    | none => acc
    | some node =>
        traverseFold (fun p a => traverseAcc nodeMap next fuel p a)
          (next node) acc

/-- `getAncestors(nodeId, tree)`: transitive closure over prerequisites. -/
def getAncestors (nodeId : String) (tree : ComputedTechTree) : List String :=
  traverseAcc (buildCNodeMap tree) (fun n => n.prerequisites)
    (tree.nodes.length + 1) nodeId []

/-- `getDescendants(nodeId, tree)`: transitive closure over dependents. -/
def getDescendants (nodeId : String) (tree : ComputedTechTree) : List String :=
  traverseAcc (buildCNodeMap tree) (fun n => n.dependents)
    (tree.nodes.length + 1) nodeId []

/-!
## Parser / validator (`parser.ts`)

`parseTechTree` is modelled from the point where the YAML text has been
decoded into structured data (the `yaml` library and its exceptions are
outside the core).  A raw node/tree is the decoded object: fields that the
zod schema marks `.optional()` or `.default(...)` may be absent (`none`).
Field types are carried by the embedding; the schema checks that remain are
the value constraints (`min(1)` on strings and arrays, `positive()` on
`tier`, the `status` enum).
-/

/-- Raw (pre-validation) node object as decoded from YAML. -/
structure RawNode where
  id : String
  name : String
  description : Option String := none
  repo : Option String := none
  tier : Option Nat := none
  status : Option String := none
  prerequisites : Option (List String) := none
  devPoints : Option Nat := none
  blockedReason : Option String := none
  tags : Option (List String) := none
  subtree : Option String := none
deriving DecidableEq, Repr

/-- Raw (pre-validation) tree object as decoded from YAML. -/
structure RawTree where
  name : String
  version : Option String := none
  description : Option String := none
  nodes : List RawNode
deriving DecidableEq, Repr

/-- The `z.enum([...])` decode of a status string. -/
def statusOfString (s : String) : Option NodeStatus :=
  if s = "completed" then some NodeStatus.completed
  else if s = "in-progress" then some NodeStatus.inProgress
  else if s = "planned" then some NodeStatus.planned
  else if s = "blocked" then some NodeStatus.blocked
  else none

/-- The serialized form of a status (inverse of `statusOfString`). -/
def statusToString : NodeStatus → String
  | NodeStatus.completed => "completed"
  | NodeStatus.inProgress => "in-progress"
  | NodeStatus.planned => "planned"
  | NodeStatus.blocked => "blocked"

/-- Shared tail of `parseNode`: the non-status checks and the construction
with defaults applied. -/
def parseNodeChecked (r : RawNode) (st : NodeStatus) : Option TechNode :=
  if r.id.length = 0 then none
  else if r.name.length = 0 then none
  else if r.tier = some 0 then none
  else some
    { id := r.id
      name := r.name
      description := r.description
      repo := r.repo
      tier := r.tier
      status := st
      prerequisites := r.prerequisites.getD []
      devPoints := r.devPoints
      blockedReason := r.blockedReason
      tags := r.tags.getD []
      subtree := r.subtree }

/-- `TechNodeSchema.safeParse` on one raw node: check the field constraints
and apply the zod defaults (`status` → planned, `prerequisites` → `[]`,
`tags` → `[]`). -/
def parseNode (r : RawNode) : Option TechNode :=
  match r.status with
  | some s =>
    match statusOfString s with
    | none => none
    | some st => parseNodeChecked r st
  | none => parseNodeChecked r NodeStatus.planned

/-- `TechNodeSchema.safeParse` element-wise over the `nodes` array: the
whole array parses iff every element does. -/
def parseNodes : List RawNode → Option (List TechNode)
  | [] => some []
  | r :: rs =>
    match parseNode r with
    | none => none
    | some n =>
      match parseNodes rs with
      | none => none
      | some ns => some (n :: ns)

/-- `TechTreeSchema.safeParse`: tree-level constraints (`name` non-empty,
at least one node), node parsing, and the `version` default. -/
def parseTree (r : RawTree) : Option TechTree :=
  match parseNodes r.nodes with
  | none => none
  | some ns =>
    if r.name.length = 0 then none
    else if ns.length = 0 then none
    else some
      { name := r.name
        version := r.version.getD "1.0.0"
        description := r.description
        nodes := ns }

/-- Per-field schema error messages for one raw node, zod-style
(`formatZodErrors` output, path `nodes.<i>.<field>`). -/
def nodeSchemaErrors (i : Nat) (r : RawNode) : List String :=
  (if r.id.length = 0 then
    ["nodes." ++ toString i ++ ".id: String must contain at least 1 character(s)"]
   else []) ++
  (if r.name.length = 0 then
    ["nodes." ++ toString i ++ ".name: String must contain at least 1 character(s)"]
   else []) ++
  (if r.tier = some 0 then
    ["nodes." ++ toString i ++ ".tier: Number must be greater than 0"]
   else []) ++
  (match r.status with
   | none => []
   | some s =>
     if statusOfString s = none then
       ["nodes." ++ toString i ++ ".status: Invalid enum value"]
     else [])

/-- All schema error messages for a raw tree (`formatZodErrors`). -/
def schemaErrorDetails (r : RawTree) : List String :=
  (if r.name.length = 0 then
    ["name: String must contain at least 1 character(s)"]
   else []) ++
  (if r.nodes.length = 0 then
    ["nodes: Array must contain at least 1 element(s)"]
   else []) ++
  ((List.range r.nodes.length).zip r.nodes).foldr
    (fun p acc => nodeSchemaErrors p.1 p.2 ++ acc) []

/-- Result of `parseTechTree` (`ParseResult`). -/
inductive ParseResult where
  | success (data : TechTree)
  | failure (error : String) (details : Option (List String))
deriving DecidableEq, Repr

/-- The message `Node "<id>" has invalid prerequisite "<prereq>"`. -/
def invalidPrereqMsg (nodeId prereq : String) : String :=
  "Node \"" ++ nodeId ++ "\" has invalid prerequisite \"" ++ prereq ++ "\""

/-- The message `Duplicate ID: "<id>"`. -/
def duplicateIdMsg (id : String) : String :=
  "Duplicate ID: \"" ++ id ++ "\""

/-- The `invalidPrereqs` accumulation loop of `parseTechTree`: for each node
in order, for each prerequisite in order that matches no node id, push the
message. -/
def invalidPrereqMsgs (data : TechTree) : List String :=
  let nodeIds := data.nodes.map (fun n => n.id)
  data.nodes.foldl
    (fun acc n =>
      acc ++ (n.prerequisites.filter (fun p => decide (p ∉ nodeIds))).map
        (invalidPrereqMsg n.id))
    []

/-- The loop body of `findDuplicates`: `seen`/`duplicates` are JS `Set`s
(guarded append keeps insertion order). -/
def findDuplicatesGo : List String → List String → List String → List String
  | [], _, dups => dups
  | x :: xs, seen, dups =>
    if x ∈ seen then
      findDuplicatesGo xs seen (if x ∈ dups then dups else dups ++ [x])
    else
      findDuplicatesGo xs (seen ++ [x]) dups

/-- `findDuplicates(arr)`: the distinct values occurring more than once, in
first-repeat order. -/
def findDuplicates (arr : List String) : List String :=
  findDuplicatesGo arr [] []

/-- `parseTechTree`, from decoded raw data: schema validation, then
referential integrity of prerequisites, then duplicate-id detection. -/
def parseTechTree (raw : RawTree) : ParseResult :=
  match parseTree raw with
  | none => ParseResult.failure "Schema validation failed"
      (some (schemaErrorDetails raw))
  | some data =>
    let invalid := invalidPrereqMsgs data
    if invalid ≠ [] then
      ParseResult.failure "Invalid prerequisites" (some invalid)
    else
      let dups := findDuplicates (data.nodes.map (fun n => n.id))
      if dups ≠ [] then
        ParseResult.failure "Duplicate node IDs" (some (dups.map duplicateIdMsg))
      else
        ParseResult.success data

/-- Serialize a validated node back to its raw form (every field present). -/
def nodeToRaw (n : TechNode) : RawNode :=
  { id := n.id
    name := n.name
    description := n.description
    repo := n.repo
    tier := n.tier
    status := some (statusToString n.status)
    prerequisites := some n.prerequisites
    devPoints := n.devPoints
    blockedReason := n.blockedReason
    tags := some n.tags
    subtree := n.subtree }

/-- Serialize a validated tree back to its raw form (every field present). -/
def treeToRaw (t : TechTree) : RawTree :=
  { name := t.name
    version := some t.version
    description := t.description
    nodes := t.nodes.map nodeToRaw }

/-- Fill the zod defaults of a raw node without any other change. -/
def fillNodeDefaults (r : RawNode) : RawNode :=
  { r with
    status := some (r.status.getD "planned")
    prerequisites := some (r.prerequisites.getD [])
    tags := some (r.tags.getD []) }

/-- Fill the zod defaults of a raw tree without any other change. -/
def fillTreeDefaults (r : RawTree) : RawTree :=
  { r with
    version := some (r.version.getD "1.0.0")
    nodes := r.nodes.map fillNodeDefaults }

/-!
## Graph relations used by the specification

The prerequisite edge relation of a node list, and acyclicity, used to state
the claims about tiers and traversals.
-/

/-- `prereqEdge nodes a b`: some node with id `a` lists `b` as a
prerequisite (the edge followed by the tier recursion and `getAncestors`). -/
def prereqEdge (nodes : List TechNode) (a b : String) : Prop :=
  ∃ n ∈ nodes, n.id = a ∧ b ∈ n.prerequisites

/-- The prerequisite graph has no (directed, non-empty) cycle. -/
def AcyclicPrereqs (nodes : List TechNode) : Prop :=
  ∀ a, ¬ Relation.TransGen (prereqEdge nodes) a a

/-!
## Association list lemmas
-/

section AssocLemmas

variable {κ β : Type} [DecidableEq κ]

theorem alookup_aset_self (m : List (κ × β)) (k : κ) (v : β) :
    alookup (aset m k v) k = some v := by
  induction m with
  | nil => simp [aset, alookup]
  | cons kv rest ih =>
    obtain ⟨k', v'⟩ := kv
    by_cases h : k' = k
    · simp [aset, h, alookup]
    · simp [aset, h, alookup, ih]

theorem alookup_aset_ne (m : List (κ × β)) (k : κ) (v : β) (k' : κ)
    (h : k ≠ k') : alookup (aset m k v) k' = alookup m k' := by
  induction m with
  | nil => simp [aset, alookup, h]
  | cons kv rest ih =>
    obtain ⟨k'', v''⟩ := kv
    by_cases h2 : k'' = k
    · subst h2
      simp [aset, alookup, h, Ne.symm h]
    · by_cases h3 : k'' = k' <;> simp [aset, alookup, h2, h3, ih, Ne.symm h]

theorem alookup_aset_cases (m : List (κ × β)) (k : κ) (v : β) (k' : κ)
    (w : β) (h : alookup (aset m k v) k' = some w) :
    (k' = k ∧ w = v) ∨ alookup m k' = some w := by
  by_cases hk : k = k'
  · subst hk
    rw [alookup_aset_self] at h
    exact Or.inl ⟨rfl, (Option.some_injective _ h).symm⟩
  · rw [alookup_aset_ne m k v k' hk] at h
    exact Or.inr h

theorem alookup_aset_isSome (m : List (κ × β)) (k : κ) (v : β) (k' : κ)
    (h : alookup m k' ≠ none) : alookup (aset m k v) k' ≠ none := by
  by_cases hk : k = k'
  · subst hk
    simp [alookup_aset_self]
  · rwa [alookup_aset_ne m k v k' hk]

variable {α : Type} (f : α → κ) (g : α → β)

theorem alookup_foldl_aset_of_forall_ne (l : List α)
    (init : List (κ × β)) (k : κ) (h : ∀ x ∈ l, f x ≠ k) :
    alookup (l.foldl (fun m x => aset m (f x) (g x)) init) k = alookup init k := by
  induction l generalizing init with
  | nil => rfl
  | cons a rest ih =>
    have ha : f a ≠ k := h a (List.mem_cons_self a rest)
    simp only [List.foldl_cons]
    rw [ih (aset init (f a) (g a)) (fun x hx => h x (List.mem_cons_of_mem a hx)),
      alookup_aset_ne init (f a) (g a) k ha]

theorem alookup_foldl_aset_mem (l : List α) (init : List (κ × β)) (k : κ)
    (v : β)
    (h : alookup (l.foldl (fun m x => aset m (f x) (g x)) init) k = some v) :
    alookup init k = some v ∨ ∃ x ∈ l, f x = k ∧ g x = v := by
  induction l generalizing init with
  | nil => exact Or.inl h
  | cons a rest ih =>
    simp only [List.foldl_cons] at h
    rcases ih (aset init (f a) (g a)) h with h2 | ⟨x, hx, hfx, hgx⟩
    · rcases alookup_aset_cases init (f a) (g a) k v h2 with ⟨hk, hv⟩ | h3
      · exact Or.inr ⟨a, List.mem_cons_self a rest, hk.symm, hv.symm⟩
      · exact Or.inl h3
    · exact Or.inr ⟨x, List.mem_cons_of_mem a hx, hfx, hgx⟩

theorem alookup_foldl_aset_dom (l : List α) (init : List (κ × β)) (k : κ)
    (hin : alookup init k ≠ none) :
    alookup (l.foldl (fun m y => aset m (f y) (g y)) init) k ≠ none := by
  induction l generalizing init with
  | nil => exact hin
  | cons a rest ih =>
    simp only [List.foldl_cons]
    exact ih _ (alookup_aset_isSome init (f a) (g a) k hin)

theorem alookup_foldl_aset_isSome (l : List α) (init : List (κ × β)) (x : α)
    (hx : x ∈ l) :
    alookup (l.foldl (fun m y => aset m (f y) (g y)) init) (f x) ≠ none := by
  induction l generalizing init with
  | nil => cases hx
  | cons a rest ih =>
    simp only [List.foldl_cons]
    rcases List.mem_cons.mp hx with h | h
    · subst h
      apply alookup_foldl_aset_dom f g rest _ (f x)
      rw [alookup_aset_self]
      simp
    · exact ih _ h

theorem alookup_foldl_aset_self (l : List α) (init : List (κ × β))
    (hnd : (l.map f).Nodup) (x : α) (hx : x ∈ l)
    (hin : alookup init (f x) = none) :
    alookup (l.foldl (fun m y => aset m (f y) (g y)) init) (f x) = some (g x) := by
  induction l generalizing init with
  | nil => cases hx
  | cons a rest ih =>
    simp only [List.map_cons, List.nodup_cons] at hnd
    simp only [List.foldl_cons]
    rcases List.mem_cons.mp hx with h | h
    · subst h
      have hr : ∀ y ∈ rest, f y ≠ f x := by
        intro y hy hfy
        exact hnd.1 (hfy ▸ List.mem_map_of_mem f hy)
      rw [alookup_foldl_aset_of_forall_ne f g rest _ (f x) hr,
        alookup_aset_self]
    · have hne : f a ≠ f x := by
        intro hfa
        exact hnd.1 (hfa ▸ List.mem_map_of_mem f h)
      exact ih (aset init (f a) (g a)) hnd.2 h
        (by rw [alookup_aset_ne init (f a) (g a) (f x) hne]; exact hin)

end AssocLemmas

/-!
## Node map lemmas
-/

theorem buildNodeMap_mem (nodes : List TechNode) (k : String) (nd : TechNode)
    (h : alookup (buildNodeMap nodes) k = some nd) : nd ∈ nodes ∧ nd.id = k := by
  rcases alookup_foldl_aset_mem (fun n : TechNode => n.id) (fun n => n) nodes [] k nd h with
    h2 | ⟨x, hx, hfx, hgx⟩
  · simp [alookup] at h2
  · exact ⟨hgx ▸ hx, hgx ▸ hfx⟩

theorem buildNodeMap_self (nodes : List TechNode)
    (hnd : (nodes.map TechNode.id).Nodup) (n : TechNode) (hn : n ∈ nodes) :
    alookup (buildNodeMap nodes) n.id = some n :=
  alookup_foldl_aset_self (fun n : TechNode => n.id) (fun n => n) nodes []
    hnd n hn rfl

theorem buildNodeMap_isSome (nodes : List TechNode) (n : TechNode)
    (hn : n ∈ nodes) : alookup (buildNodeMap nodes) n.id ≠ none :=
  alookup_foldl_aset_isSome (fun n : TechNode => n.id) (fun n => n) nodes [] n hn

theorem buildNodeMap_none (nodes : List TechNode) (k : String)
    (h : ∀ n ∈ nodes, n.id ≠ k) : alookup (buildNodeMap nodes) k = none := by
  rw [buildNodeMap, alookup_foldl_aset_of_forall_ne (fun n : TechNode => n.id)
    (fun n => n) nodes [] k h]
  rfl

/-!
## Claim C1 — the 2-cycle scenario

The spec's concrete scenario: node A has prerequisite B and node B has
prerequisite A.  `computeTechTree` does complete and does record a warning,
but the actual tiers are A ↦ 3, B ↦ 2 (the cycle-closing re-entry into A is
treated as tier 1 only on that resolution path, so B gets 1+1=2 and then A
gets 2+1=3), not 1 for each as claimed.
-/

/-- The 2-cycle tree: A depends on B, B depends on A. -/
def cycleTree : TechTree :=
  { name := "cycle"
    nodes := [ { id := "A", name := "A", prerequisites := ["B"] },
               { id := "B", name := "B", prerequisites := ["A"] } ] }

/-- C1 counterexample: in the 2-cycle tree it is not the case that every
node is assigned computed tier 1. -/
theorem claim1_counterexample :
    ¬ (∀ n ∈ (computeTechTree cycleTree).nodes, n.computedTier = 1) := by
  decide

/-- C1 (amended): for the 2-cycle tree, computation completes with A
assigned computed tier 3 and B computed tier 2 (both at least 1), and a
cycle warning is recorded for at least one of the nodes. -/
theorem claim1_theorem :
    (computeTechTree cycleTree).nodes.map (fun n => (n.id, n.computedTier)) =
      [("A", 3), ("B", 2)] ∧
    (∀ n ∈ (computeTechTree cycleTree).nodes, 1 ≤ n.computedTier) ∧
    tierWarnings cycleTree ≠ [] := by
  refine ⟨by decide, by decide, by decide⟩

/-!
## Claim C8 — `getNextTargets` is exactly the spec's ready-node filter
-/

/-- The spec-side readiness predicate for C8: status is neither Completed
nor InProgress, and every prerequisite id belongs to a Completed node. -/
def readyNodeSpec (tree : ComputedTechTree) (n : ComputedTechNode) : Prop :=
  n.status ≠ NodeStatus.completed ∧ n.status ≠ NodeStatus.inProgress ∧
  ∀ p ∈ n.prerequisites,
    ∃ m ∈ tree.nodes, m.id = p ∧ m.status = NodeStatus.completed

instance (tree : ComputedTechTree) (n : ComputedTechNode) :
    Decidable (readyNodeSpec tree n) := by
  unfold readyNodeSpec
  infer_instance

/-- Membership in the `completedIds` set built by `getNextTargets` and
`canStartNode`. -/
theorem mem_completedIds (nodes : List ComputedTechNode) (p : String) :
    (p ∈ (nodes.filter (fun n => n.status = NodeStatus.completed)).map
        (fun n => n.id)) ↔
      ∃ m ∈ nodes, m.id = p ∧ m.status = NodeStatus.completed := by
  simp only [List.mem_map, List.mem_filter, decide_eq_true_eq]
  constructor
  · rintro ⟨m, ⟨hm, hst⟩, hid⟩
    exact ⟨m, hm, hid, hst⟩
  · rintro ⟨m, hm, hid, hst⟩
    exact ⟨m, ⟨hm, hst⟩, hid⟩

/-- C8: `getNextTargets` returns exactly the nodes satisfying the spec's
readiness predicate, filtered out of `tree.nodes` in place — so the result
is in the same relative order as the tree's node list. -/
theorem claim8_theorem (tree : ComputedTechTree) :
    getNextTargets tree = tree.nodes.filter (fun n => readyNodeSpec tree n) := by
  unfold getNextTargets
  apply List.filter_congr
  intro n _
  by_cases h1 : n.status = NodeStatus.completed ∨ n.status = NodeStatus.inProgress
  · have : ¬ readyNodeSpec tree n := by
      rintro ⟨hc, hip, _⟩
      rcases h1 with h | h
      · exact hc h
      · exact hip h
    simp [h1, this]
  · push_neg at h1
    have hrs : readyNodeSpec tree n ↔
        ∀ p ∈ n.prerequisites,
          ∃ m ∈ tree.nodes, m.id = p ∧ m.status = NodeStatus.completed := by
      unfold readyNodeSpec
      simp [h1.1, h1.2]
    by_cases h2 : ∀ p ∈ n.prerequisites,
        ∃ m ∈ tree.nodes, m.id = p ∧ m.status = NodeStatus.completed
    · have hall : n.prerequisites.all (fun p => decide (p ∈
          (tree.nodes.filter (fun n => n.status = NodeStatus.completed)).map
            (fun n => n.id))) = true := by
        rw [List.all_eq_true]
        intro p hp
        rw [decide_eq_true_eq, mem_completedIds]
        exact h2 p hp
      simp only [not_or] at *
      simp [h1.1, h1.2, hall, hrs.mpr h2]
    · have hall : ¬ (n.prerequisites.all (fun p => decide (p ∈
          (tree.nodes.filter (fun n => n.status = NodeStatus.completed)).map
            (fun n => n.id))) = true) := by
        rw [List.all_eq_true]
        intro hc
        apply h2
        intro p hp
        have := hc p hp
        rwa [decide_eq_true_eq, mem_completedIds] at this
      simp only [Bool.not_eq_true] at hall
      simp [h1.1, h1.2, hall, hrs, h2]

/-!
## Claim C7 — `canStartNode` semantics
-/

/-- Injectivity of `id` on a node list whose id projection has no
duplicates. -/
theorem eq_of_mem_of_nodup_ids {α : Type} (f : α → String) (l : List α)
    (hnd : (l.map f).Nodup) (a b : α) (ha : a ∈ l) (hb : b ∈ l)
    (hf : f a = f b) : a = b := by
  induction l with
  | nil => cases ha
  | cons x rest ih =>
    simp only [List.map_cons, List.nodup_cons] at hnd
    rcases List.mem_cons.mp ha with h1 | h1 <;>
      rcases List.mem_cons.mp hb with h2 | h2
    · exact h1.trans h2.symm
    · subst h1
      exact absurd (hf ▸ List.mem_map_of_mem f h2) hnd.1
    · subst h2
      exact absurd (hf ▸ List.mem_map_of_mem f h1) hnd.1
    · exact ih hnd.2 h1 h2

/-- C7: `canStartNode nodeId tree` is true iff `nodeId` names a node of the
tree all of whose prerequisite ids belong to Completed nodes; when no node
has that id, it returns `false` (no error is raised — the function is
total). -/
theorem claim7_theorem (tree : ComputedTechTree)
    (hnd : (tree.nodes.map (fun n => n.id)).Nodup) (nodeId : String) :
    (canStartNode nodeId tree = true ↔
      ∃ node ∈ tree.nodes, node.id = nodeId ∧
        ∀ p ∈ node.prerequisites,
          ∃ m ∈ tree.nodes, m.id = p ∧ m.status = NodeStatus.completed) ∧
    ((∀ n ∈ tree.nodes, n.id ≠ nodeId) → canStartNode nodeId tree = false) := by
  constructor
  · unfold canStartNode
    cases hfind : tree.nodes.find? (fun n => decide (n.id = nodeId)) with
    | none =>
      simp only [Bool.false_eq_true, false_iff]
      rintro ⟨node, hmem, hid, _⟩
      have := List.find?_eq_none.mp hfind node hmem
      simp [hid] at this
    | some node =>
      have hmem : node ∈ tree.nodes := List.mem_of_find?_eq_some hfind
      have hid : node.id = nodeId := by
        have := List.find?_some hfind
        rwa [decide_eq_true_eq] at this
      constructor
      · intro hall
        refine ⟨node, hmem, hid, ?_⟩
        intro p hp
        rw [List.all_eq_true] at hall
        have := hall p hp
        rw [decide_eq_true_eq, mem_completedIds] at this
        exact this
      · rintro ⟨node2, hmem2, hid2, hpre⟩
        have : node2 = node :=
          eq_of_mem_of_nodup_ids (fun n => n.id) tree.nodes hnd node2 node
            hmem2 hmem (by simp only []; rw [hid, hid2])
        subst this
        rw [List.all_eq_true]
        intro p hp
        rw [decide_eq_true_eq, mem_completedIds]
        exact hpre p hp
  · intro hnone
    unfold canStartNode
    cases hfind : tree.nodes.find? (fun n => decide (n.id = nodeId)) with
    | none => rfl
    | some node =>
      have hmem : node ∈ tree.nodes := List.mem_of_find?_eq_some hfind
      have hid : node.id = nodeId := by
        have := List.find?_some hfind
        rwa [decide_eq_true_eq] at this
      exact absurd hid (hnone node hmem)

/-- A small concrete computed tree used to witness C7's hypotheses: `a` is
completed, `b` requires `a`, `c` requires `b`. -/
def witnessTree7 : ComputedTechTree :=
  computeTechTree
    { name := "w7"
      nodes := [ { id := "a", name := "a", status := NodeStatus.completed },
                 { id := "b", name := "b", prerequisites := ["a"] },
                 { id := "c", name := "c", prerequisites := ["b"] } ] }

/-- Witness for C7 at a concrete tree and node id. -/
theorem claim7_witness :
    (canStartNode "b" witnessTree7 = true ↔
      ∃ node ∈ witnessTree7.nodes, node.id = "b" ∧
        ∀ p ∈ node.prerequisites,
          ∃ m ∈ witnessTree7.nodes, m.id = p ∧ m.status = NodeStatus.completed) ∧
    ((∀ n ∈ witnessTree7.nodes, n.id ≠ "b") →
      canStartNode "b" witnessTree7 = false) :=
  claim7_theorem witnessTree7 (by decide) "b"

/-!
## Parser lemmas shared by C3, C5, C6
-/

theorem foldl_append_eq {α β : Type} (k : α → List β) (l : List α)
    (init : List β) :
    l.foldl (fun acc x => acc ++ k x) init = init ++ (l.map k).flatten := by
  induction l generalizing init with
  | nil => simp
  | cons a rest ih => simp [ih, List.append_assoc]

theorem invalidPrereqMsgs_eq (data : TechTree) :
    invalidPrereqMsgs data = (data.nodes.map (fun n =>
      (n.prerequisites.filter (fun p =>
        decide (p ∉ data.nodes.map (fun n2 => n2.id)))).map
        (invalidPrereqMsg n.id))).flatten := by
  simp only [invalidPrereqMsgs]
  rw [foldl_append_eq]
  rfl

/-- One (node-id, missing-id) entry per violating occurrence, in program
order: the pairs whose messages `parseTechTree` reports. -/
def invalidPairs (data : TechTree) : List (String × String) :=
  (data.nodes.map (fun n =>
    (n.prerequisites.filter (fun p =>
      decide (p ∉ data.nodes.map (fun n2 => n2.id)))).map
      (fun p => (n.id, p)))).flatten

theorem invalidPrereqMsgs_eq_pairs (data : TechTree) :
    invalidPrereqMsgs data =
      (invalidPairs data).map (fun pr => invalidPrereqMsg pr.1 pr.2) := by
  rw [invalidPrereqMsgs_eq, invalidPairs, List.map_flatten, List.map_map]
  refine congrArg List.flatten (List.map_congr_left ?_)
  intro n _
  simp only [Function.comp_apply, List.map_map]
  rfl

theorem invalidPrereqMsgs_eq_nil (data : TechTree) :
    invalidPrereqMsgs data = [] ↔
      ∀ n ∈ data.nodes, ∀ p ∈ n.prerequisites,
        p ∈ data.nodes.map (fun n2 => n2.id) := by
  rw [invalidPrereqMsgs_eq]
  simp

theorem invalidPairs_mem (data : TechTree) (a b : String) :
    (a, b) ∈ invalidPairs data ↔
      ∃ n ∈ data.nodes, n.id = a ∧ b ∈ n.prerequisites ∧
        ∀ m ∈ data.nodes, m.id ≠ b := by
  constructor
  · intro h
    rw [invalidPairs, List.mem_flatten] at h
    obtain ⟨l, hl, hmem⟩ := h
    rw [List.mem_map] at hl
    obtain ⟨n, hn, rfl⟩ := hl
    rw [List.mem_map] at hmem
    obtain ⟨p, hp, hpair⟩ := hmem
    rw [List.mem_filter] at hp
    obtain ⟨hpmem, hpdec⟩ := hp
    rw [decide_eq_true_eq] at hpdec
    have h1 : n.id = a := congrArg Prod.fst hpair
    have h2 : p = b := congrArg Prod.snd hpair
    subst h2
    refine ⟨n, hn, h1, hpmem, ?_⟩
    intro m hm hid
    exact hpdec (hid ▸ List.mem_map_of_mem (fun n2 => n2.id) hm)
  · rintro ⟨n, hn, hid, hb, hmiss⟩
    rw [invalidPairs, List.mem_flatten]
    refine ⟨List.map (fun p => (n.id, p))
      (List.filter (fun p =>
        decide (p ∉ List.map (fun n2 => n2.id) data.nodes)) n.prerequisites),
      List.mem_map_of_mem _ hn, ?_⟩
    rw [List.mem_map]
    refine ⟨b, ?_, by rw [hid]⟩
    rw [List.mem_filter]
    refine ⟨hb, ?_⟩
    rw [decide_eq_true_eq, List.mem_map]
    rintro ⟨m, hm, hid2⟩
    exact hmiss m hm hid2

theorem findDuplicatesGo_mem (arr : List String) :
    ∀ seen dups x, x ∈ findDuplicatesGo arr seen dups ↔
      x ∈ dups ∨ (x ∈ seen ∧ x ∈ arr) ∨ 2 ≤ arr.count x := by
  induction arr with
  | nil => simp [findDuplicatesGo]
  | cons a as ih =>
    intro seen dups x
    simp only [findDuplicatesGo]
    by_cases hseen : a ∈ seen
    · rw [if_pos hseen, ih]
      by_cases hx : x = a
      · rw [hx]
        apply iff_of_true
        · left
          by_cases hd : a ∈ dups
          · simp [hd]
          · simp [hd]
        · exact Or.inr (Or.inl ⟨hseen, List.mem_cons_self a as⟩)
      · have hdups : (x ∈ if a ∈ dups then dups else dups ++ [a]) ↔ x ∈ dups := by
          by_cases hd : a ∈ dups
          · simp [hd]
          · simp [hd, hx]
        rw [hdups]
        have hcount : (a :: as).count x = as.count x := by
          simp [List.count_cons, Ne.symm hx]
        rw [hcount]
        have hmem : (x ∈ seen ∧ x ∈ a :: as) ↔ (x ∈ seen ∧ x ∈ as) := by
          simp [List.mem_cons, hx]
        rw [hmem]
    · rw [if_neg hseen, ih]
      by_cases hx : x = a
      · rw [hx]
        have h1 : a ∈ seen ++ [a] := by simp
        constructor
        · rintro (hd | ⟨_, hmem⟩ | hc)
          · exact Or.inl hd
          · have hpos := List.count_pos_iff.mpr hmem
            refine Or.inr (Or.inr ?_)
            rw [List.count_cons_self]
            omega
          · refine Or.inr (Or.inr ?_)
            rw [List.count_cons_self]
            omega
        · rintro (hd | ⟨hs, _⟩ | hc)
          · exact Or.inl hd
          · exact absurd hs hseen
          · rw [List.count_cons_self] at hc
            by_cases h2c : 2 ≤ as.count a
            · exact Or.inr (Or.inr h2c)
            · have hpos : 0 < as.count a := by omega
              exact Or.inr (Or.inl ⟨h1, List.count_pos_iff.mp hpos⟩)
      · have hmem2 : x ∈ seen ++ [a] ↔ x ∈ seen := by simp [hx]
        have hcount : (a :: as).count x = as.count x := by
          simp [List.count_cons, Ne.symm hx]
        rw [hmem2, hcount]
        have hmem : (x ∈ seen ∧ x ∈ a :: as) ↔ (x ∈ seen ∧ x ∈ as) := by
          simp [List.mem_cons, hx]
        rw [hmem]

theorem findDuplicatesGo_nodup (arr : List String) :
    ∀ seen dups, dups.Nodup → (findDuplicatesGo arr seen dups).Nodup := by
  induction arr with
  | nil => intro seen dups h; exact h
  | cons a as ih =>
    intro seen dups h
    simp only [findDuplicatesGo]
    by_cases hseen : a ∈ seen
    · rw [if_pos hseen]
      apply ih
      by_cases hd : a ∈ dups
      · simpa [hd]
      · simp only [hd, if_false]
        simp [List.nodup_append, h, hd]
    · rw [if_neg hseen]
      exact ih _ _ h

theorem findDuplicates_mem (arr : List String) (x : String) :
    x ∈ findDuplicates arr ↔ 2 ≤ arr.count x := by
  rw [findDuplicates, findDuplicatesGo_mem]
  simp

theorem findDuplicates_nodup (arr : List String) :
    (findDuplicates arr).Nodup :=
  findDuplicatesGo_nodup arr [] [] List.nodup_nil

theorem findDuplicates_eq_nil (arr : List String) (h : arr.Nodup) :
    findDuplicates arr = [] := by
  rw [List.eq_nil_iff_forall_not_mem]
  intro x hx
  rw [findDuplicates_mem] at hx
  have := List.nodup_iff_count_le_one.mp h x
  omega

/-!
## Claim C6 — duplicate-id reporting
-/

/-- C6: if the schema check passes, every prerequisite resolves, and some
id is duplicated, validation fails with the `Duplicate node IDs` error whose
details contain exactly one `Duplicate ID: "<id>"` message per distinct
duplicated id (the reported list has no duplicates and contains an id iff
that id occurs at least twice). -/
theorem claim6_theorem (raw : RawTree) (data : TechTree)
    (hschema : parseTree raw = some data)
    (href : ∀ n ∈ data.nodes, ∀ p ∈ n.prerequisites,
      ∃ m ∈ data.nodes, m.id = p)
    (hdup : ¬ (data.nodes.map (fun n => n.id)).Nodup) :
    ∃ ds : List String, parseTechTree raw =
        ParseResult.failure "Duplicate node IDs" (some (ds.map duplicateIdMsg)) ∧
      ds.Nodup ∧
      ∀ x, x ∈ ds ↔ 2 ≤ (data.nodes.map (fun n => n.id)).count x := by
  refine ⟨findDuplicates (data.nodes.map (fun n => n.id)), ?_,
    findDuplicates_nodup _, fun x => findDuplicates_mem _ x⟩
  have hinv : invalidPrereqMsgs data = [] := by
    rw [invalidPrereqMsgs_eq_nil]
    intro n hn p hp
    obtain ⟨m, hm, hid⟩ := href n hn p hp
    exact hid ▸ List.mem_map_of_mem (fun n2 => n2.id) hm
  have hne : findDuplicates (data.nodes.map (fun n => n.id)) ≠ [] := by
    rw [List.nodup_iff_count_le_one] at hdup
    push_neg at hdup
    obtain ⟨x, hx⟩ := hdup
    exact List.ne_nil_of_mem ((findDuplicates_mem _ x).mpr (by omega))
  simp [parseTechTree, hschema, hinv, hne]

/-- Concrete C6 scenario: two nodes both with id `x`. -/
def claim6Raw : RawTree :=
  { name := "t", nodes := [ { id := "x", name := "x1" },
                            { id := "x", name := "x2" } ] }

/-- The schema-parse of `claim6Raw`. -/
def claim6Data : TechTree :=
  { name := "t", version := "1.0.0",
    nodes := [ { id := "x", name := "x1" }, { id := "x", name := "x2" } ] }

/-- Witness for C6 at the concrete duplicate-id tree. -/
theorem claim6_witness :
    ∃ ds : List String, parseTechTree claim6Raw =
        ParseResult.failure "Duplicate node IDs" (some (ds.map duplicateIdMsg)) ∧
      ds.Nodup ∧
      ∀ x, x ∈ ds ↔ 2 ≤ (claim6Data.nodes.map (fun n => n.id)).count x :=
  claim6_theorem claim6Raw claim6Data (by decide) (by decide) (by decide)

/-!
## Claim C5 — invalid-prerequisite reporting

The code reports one message per violating occurrence, not per distinct
(node, missing-id) pair: a missing id listed twice in the same node's
prerequisites (which the data model permits) yields two identical messages.
-/

/-- Concrete C5 counterexample input: node D lists the non-existent
prerequisite `ghost` twice. -/
def claim5Raw : RawTree :=
  { name := "t",
    nodes := [ { id := "D", name := "D",
                 prerequisites := some ["ghost", "ghost"] } ] }

/-- The schema-parse of `claim5Raw`. -/
def claim5Data : TechTree :=
  { name := "t", version := "1.0.0",
    nodes := [ { id := "D", name := "D",
                 prerequisites := ["ghost", "ghost"] } ] }

/-- C5 counterexample: there is exactly one distinct violating
(node, missing-id) pair, namely (D, ghost), yet validation reports two
messages, so it does not report one message per violating pair. -/
theorem claim5_counterexample :
    parseTree claim5Raw = some claim5Data ∧
    parseTechTree claim5Raw = ParseResult.failure "Invalid prerequisites"
      (some [invalidPrereqMsg "D" "ghost", invalidPrereqMsg "D" "ghost"]) ∧
    (invalidPairs claim5Data).dedup = [("D", "ghost")] ∧
    (invalidPairs claim5Data).length = 2 := by
  refine ⟨by decide, by decide, by decide, by decide⟩

/-- C5 (amended): if the schema check passes and some node lists a
prerequisite matching no node id, validation fails with the
`Invalid prerequisites` error — reported instead of any duplicate-id error,
and with no tier computation (the result is a failure, not a computed tree) —
whose details are exactly one message of the form
`Node "<id>" has invalid prerequisite "<missing-id>"` per violating
(node, missing-id) occurrence, in program order. -/
theorem claim5_amended (raw : RawTree) (data : TechTree)
    (hschema : parseTree raw = some data)
    (hviol : ∃ n ∈ data.nodes, ∃ p ∈ n.prerequisites,
      ∀ m ∈ data.nodes, m.id ≠ p) :
    parseTechTree raw = ParseResult.failure "Invalid prerequisites"
      (some ((invalidPairs data).map (fun pr => invalidPrereqMsg pr.1 pr.2))) ∧
    ∀ a b, ((a, b) ∈ invalidPairs data ↔
      ∃ n ∈ data.nodes, n.id = a ∧ b ∈ n.prerequisites ∧
        ∀ m ∈ data.nodes, m.id ≠ b) := by
  refine ⟨?_, fun a b => invalidPairs_mem data a b⟩
  have hne : invalidPrereqMsgs data ≠ [] := by
    rw [Ne, invalidPrereqMsgs_eq_nil]
    push_neg
    obtain ⟨n, hn, p, hp, hmiss⟩ := hviol
    refine ⟨n, hn, p, hp, ?_⟩
    simp only [List.mem_map, not_exists]
    rintro m ⟨hm, hid⟩
    exact hmiss m hm hid
  simp only [parseTechTree, hschema]
  rw [if_pos hne, invalidPrereqMsgs_eq_pairs]

/-- Witness for C5 (amended) at the concrete `ghost` tree. -/
theorem claim5_witness :
    parseTechTree claim5Raw = ParseResult.failure "Invalid prerequisites"
      (some ((invalidPairs claim5Data).map
        (fun pr => invalidPrereqMsg pr.1 pr.2))) ∧
    ∀ a b, ((a, b) ∈ invalidPairs claim5Data ↔
      ∃ n ∈ claim5Data.nodes, n.id = a ∧ b ∈ n.prerequisites ∧
        ∀ m ∈ claim5Data.nodes, m.id ≠ b) :=
  claim5_amended claim5Raw claim5Data (by decide) (by decide)

/-!
## Claim C3 — what successful validation returns

The zod schema applies `.default(...)`: absent `status`, `prerequisites`,
`tags` (and tree-level `version`) are filled in by `safeParse`, so the
returned tree is not in general field-for-field identical to the raw input.
It is identical up to exactly those defaults, and exactly identical when all
defaultable fields are explicitly present.
-/

theorem statusToString_of_statusOfString (s : String) (st : NodeStatus)
    (h : statusOfString s = some st) : statusToString st = s := by
  unfold statusOfString at h
  split_ifs at h with h1 h2 h3 h4 <;> injection h with h5 <;> subst h5 <;>
    simp_all [statusToString]

theorem parseNode_none_status (r : RawNode) (hs : r.status = none) :
    parseNode r = parseNodeChecked r NodeStatus.planned := by
  unfold parseNode
  rw [hs]

theorem parseNode_some_status (r : RawNode) (s : String) (st : NodeStatus)
    (hs : r.status = some s) (hst : statusOfString s = some st) :
    parseNode r = parseNodeChecked r st := by
  unfold parseNode
  rw [hs]
  show (match statusOfString s with
    | none => none
    | some st => parseNodeChecked r st) = parseNodeChecked r st
  rw [hst]

theorem nodeToRaw_parseNode (r : RawNode) (n : TechNode)
    (h : parseNode r = some n) : nodeToRaw n = fillNodeDefaults r := by
  cases hs : r.status with
  | none =>
    rw [parseNode_none_status r hs] at h
    unfold parseNodeChecked at h
    split_ifs at h
    injection h with h2
    subst h2
    simp [nodeToRaw, fillNodeDefaults, hs, statusToString]
  | some s =>
    cases hst : statusOfString s with
    | none =>
      rw [parseNode, hs] at h
      revert h
      show (match statusOfString s with
        | none => none
        | some st => parseNodeChecked r st) = some n → _
      rw [hst]
      intro h
      cases h
    | some st =>
      rw [parseNode_some_status r s st hs hst] at h
      unfold parseNodeChecked at h
      split_ifs at h
      injection h with h2
      subst h2
      simp [nodeToRaw, fillNodeDefaults, hs,
        statusToString_of_statusOfString s st hst]

theorem parseNodes_toRaw (rs : List RawNode) (ns : List TechNode)
    (h : parseNodes rs = some ns) :
    ns.map nodeToRaw = rs.map fillNodeDefaults := by
  induction rs generalizing ns with
  | nil =>
    simp only [parseNodes] at h
    injection h with h2
    subst h2
    rfl
  | cons r rest ih =>
    simp only [parseNodes] at h
    cases hpn : parseNode r with
    | none => rw [hpn] at h; cases h
    | some n =>
      rw [hpn] at h
      cases hrest : parseNodes rest with
      | none => rw [hrest] at h; cases h
      | some ns2 =>
        rw [hrest] at h
        injection h with h2
        subst h2
        simp only [List.map_cons]
        rw [nodeToRaw_parseNode r n hpn, ih ns2 hrest]

/-- C3 counterexample input: a raw node with `status`, `prerequisites` and
`tags` absent (all schema checks pass). -/
def claim3Raw : RawTree :=
  { name := "t", nodes := [ { id := "a", name := "a" } ] }

/-- The tree that validation actually returns for `claim3Raw`. -/
def claim3Data : TechTree :=
  { name := "t", version := "1.0.0",
    nodes := [ { id := "a", name := "a" } ] }

/-- C3 counterexample: validation of `claim3Raw` succeeds, but the returned
tree is not the input unchanged — the defaulted fields (`status`,
`prerequisites`, `tags`, `version`) have been added. -/
theorem claim3_counterexample :
    parseTechTree claim3Raw = ParseResult.success claim3Data ∧
    treeToRaw claim3Data ≠ claim3Raw := by
  refine ⟨by decide, by decide⟩

/-- C3 (amended): when the three validation checks pass, validation succeeds
and returns the schema-parsed tree, which differs from the raw input exactly
by filling the zod defaults (absent `status` ↦ planned, absent
`prerequisites` ↦ `[]`, absent `tags` ↦ `[]`, absent `version` ↦ "1.0.0");
in particular, when every defaultable field is explicitly present the tree
is returned exactly unchanged. -/
theorem claim3_amended (raw : RawTree) (data : TechTree)
    (hschema : parseTree raw = some data)
    (href : ∀ n ∈ data.nodes, ∀ p ∈ n.prerequisites,
      ∃ m ∈ data.nodes, m.id = p)
    (huniq : (data.nodes.map (fun n => n.id)).Nodup) :
    parseTechTree raw = ParseResult.success data ∧
    treeToRaw data = fillTreeDefaults raw ∧
    (fillTreeDefaults raw = raw → treeToRaw data = raw) := by
  have h2 : treeToRaw data = fillTreeDefaults raw := by
    cases hpn : parseNodes raw.nodes with
    | none =>
      rw [parseTree, hpn] at hschema
      have hschema2 : (none : Option TechTree) = some data := hschema
      cases hschema2
    | some ns =>
      rw [parseTree, hpn] at hschema
      have hschema2 : (if raw.name.length = 0 then none
          else if ns.length = 0 then none
          else some { name := raw.name, version := raw.version.getD "1.0.0",
                      description := raw.description, nodes := ns } :
          Option TechTree) = some data := hschema
      split_ifs at hschema2
      injection hschema2 with h3
      subst h3
      simp only [treeToRaw, fillTreeDefaults]
      rw [parseNodes_toRaw raw.nodes ns hpn]
  refine ⟨?_, h2, fun hfix => h2.trans hfix⟩
  have hinv : invalidPrereqMsgs data = [] := by
    rw [invalidPrereqMsgs_eq_nil]
    intro n hn p hp
    obtain ⟨m, hm, hid⟩ := href n hn p hp
    exact hid ▸ List.mem_map_of_mem (fun n2 => n2.id) hm
  have hdups : findDuplicates (data.nodes.map (fun n => n.id)) = [] :=
    findDuplicates_eq_nil _ huniq
  simp [parseTechTree, hschema, hinv, hdups]

/-- A raw tree with every defaultable field explicitly present. -/
def claim3WitnessRaw : RawTree :=
  { name := "w", version := some "2.0.0", description := some "d",
    nodes := [ { id := "a", name := "a", status := some "completed",
                 prerequisites := some [], tags := some ["x"],
                 tier := some 2, devPoints := some 3 } ] }

/-- The parse of `claim3WitnessRaw`. -/
def claim3WitnessData : TechTree :=
  { name := "w", version := "2.0.0", description := some "d",
    nodes := [ { id := "a", name := "a", status := NodeStatus.completed,
                 prerequisites := [], tags := ["x"],
                 tier := some 2, devPoints := some 3 } ] }

/-- Witness for C3 (amended) at a fully-specified raw tree. -/
theorem claim3_witness :
    parseTechTree claim3WitnessRaw = ParseResult.success claim3WitnessData ∧
    treeToRaw claim3WitnessData = fillTreeDefaults claim3WitnessRaw ∧
    (fillTreeDefaults claim3WitnessRaw = claim3WitnessRaw →
      treeToRaw claim3WitnessData = claim3WitnessRaw) :=
  claim3_amended claim3WitnessRaw claim3WitnessData (by decide) (by decide)
    (by decide)

/-!
## Claim C4 — dependents is the inverse relation of prerequisites
-/

theorem pushDependent_lookup (m : List (String × List String)) (q child p :
    String) :
    alookup (pushDependent m q child) p =
      if q = p then (alookup m p).map (fun ds => ds ++ [child])
      else alookup m p := by
  by_cases hqp : q = p
  · subst hqp
    cases h : alookup m q with
    | none => simp [pushDependent, h]
    | some ds => simp [pushDependent, h, alookup_aset_self]
  · cases h : alookup m q with
    | none => simp [pushDependent, h, hqp]
    | some ds => simp [pushDependent, h, hqp, alookup_aset_ne _ _ _ _ hqp]

theorem pushLoop_lookup (ps : List String) (child : String)
    (m : List (String × List String)) (p : String) :
    alookup (ps.foldl (fun m2 q => pushDependent m2 q child) m) p =
      (alookup m p).map
        (fun ds => ds ++ (ps.filter (fun q => q = p)).map (fun _ => child)) := by
  induction ps generalizing m with
  | nil =>
    cases h : alookup m p <;> simp [h]
  | cons q qs ih =>
    simp only [List.foldl_cons]
    rw [ih, pushDependent_lookup]
    by_cases hqp : q = p
    · rw [if_pos hqp]
      cases ha : alookup m p <;>
        simp [hqp, List.filter_cons, Function.comp, List.append_assoc, ha]
    · rw [if_neg hqp]
      cases ha : alookup m p <;> simp [List.filter_cons, hqp, ha]

/-- The list of dependent ids accumulated for key `p`: one copy of `n.id`
per occurrence of `p` in `n.prerequisites`, in node order. -/
def depContrib (nodes : List TechNode) (p : String) : List String :=
  (nodes.map (fun n =>
    (n.prerequisites.filter (fun q => q = p)).map (fun _ => n.id))).flatten

theorem buildLoop_lookup (nodes : List TechNode)
    (m : List (String × List String)) (p : String) :
    alookup (nodes.foldl (fun m2 n =>
        n.prerequisites.foldl (fun m3 q => pushDependent m3 q n.id) m2) m) p =
      (alookup m p).map (fun ds => ds ++ depContrib nodes p) := by
  induction nodes generalizing m with
  | nil =>
    cases h : alookup m p <;> simp [h, depContrib]
  | cons n ns ih =>
    simp only [List.foldl_cons]
    rw [ih, pushLoop_lookup]
    cases ha : alookup m p <;>
      simp [depContrib, ha, Function.comp, List.append_assoc]

theorem seedDependents_lookup (nodes : List TechNode) (p : String) :
    alookup (seedDependents nodes) p =
      if p ∈ nodes.map (fun n => n.id) then some [] else none := by
  by_cases hp : p ∈ nodes.map (fun n => n.id)
  · rw [if_pos hp]
    rw [List.mem_map] at hp
    obtain ⟨n, hn, hid⟩ := hp
    cases h : alookup (seedDependents nodes) p with
    | none =>
      exfalso
      exact alookup_foldl_aset_isSome (fun n : TechNode => n.id)
        (fun _ => ([] : List String)) nodes [] n hn
        (by show alookup (seedDependents nodes) n.id = none
            rw [hid]
            exact h)
    | some v =>
      rcases alookup_foldl_aset_mem (fun n : TechNode => n.id)
        (fun _ => ([] : List String)) nodes [] p v h with h2 | ⟨x, _, _, hgx⟩
      · cases h2
      · exact congrArg some hgx.symm
  · rw [if_neg hp]
    have : ∀ n ∈ nodes, n.id ≠ p := by
      intro n hn hid
      exact hp (hid ▸ List.mem_map_of_mem (fun n => n.id) hn)
    rw [seedDependents, alookup_foldl_aset_of_forall_ne
      (fun n : TechNode => n.id) (fun _ => ([] : List String)) nodes [] p this]
    rfl

theorem buildDependentsMap_lookup (nodes : List TechNode) (p : String) :
    alookup (buildDependentsMap nodes) p =
      if p ∈ nodes.map (fun n => n.id) then some (depContrib nodes p)
      else none := by
  rw [buildDependentsMap, buildLoop_lookup, seedDependents_lookup]
  by_cases hp : p ∈ nodes.map (fun n => n.id) <;> simp [hp]

theorem depContrib_mem (nodes : List TechNode) (p x : String) :
    x ∈ depContrib nodes p ↔ ∃ n ∈ nodes, n.id = x ∧ p ∈ n.prerequisites := by
  unfold depContrib
  simp only [List.mem_flatten, List.mem_map]
  constructor
  · rintro ⟨l, ⟨n, hn, rfl⟩, hmem⟩
    rw [List.mem_map] at hmem
    obtain ⟨q, hq, hid⟩ := hmem
    rw [List.mem_filter, decide_eq_true_eq] at hq
    exact ⟨n, hn, hid, hq.2 ▸ hq.1⟩
  · rintro ⟨n, hn, hid, hp⟩
    refine ⟨(n.prerequisites.filter (fun q => q = p)).map (fun _ => n.id),
      ⟨n, hn, rfl⟩, ?_⟩
    rw [List.mem_map]
    exact ⟨p, List.mem_filter.mpr ⟨hp, by simp⟩, hid⟩

theorem computeNode_id (t : List (String × Nat))
    (d : List (String × List String)) (n : TechNode) :
    (computeNode t d n).id = n.id := rfl

theorem computeNode_prerequisites (t : List (String × Nat))
    (d : List (String × List String)) (n : TechNode) :
    (computeNode t d n).prerequisites = n.prerequisites := rfl

theorem computeNode_dependents (t : List (String × Nat))
    (d : List (String × List String)) (n : TechNode) :
    (computeNode t d n).dependents = (alookup d n.id).getD [] := rfl

theorem computeTechTree_nodes (tree : TechTree) :
    (computeTechTree tree).nodes = tree.nodes.map
      (computeNode (calculateTiers tree.nodes (buildNodeMap tree.nodes)).tiers
        (buildDependentsMap tree.nodes)) := rfl

/-- C4: in the computed tree, `dependents(P)` contains N's id iff
`prerequisites(N)` contains P's id, and the dependents map has a defined
(possibly empty) entry for every node id of the tree. -/
theorem claim4_theorem (tree : TechTree)
    (hnd : (tree.nodes.map (fun n => n.id)).Nodup) :
    (∀ cp ∈ (computeTechTree tree).nodes, ∀ cn ∈ (computeTechTree tree).nodes,
      (cn.id ∈ cp.dependents ↔ cp.id ∈ cn.prerequisites)) ∧
    (∀ n ∈ tree.nodes, alookup (buildDependentsMap tree.nodes) n.id ≠ none) := by
  constructor
  · intro cp hcp cn hcn
    rw [computeTechTree_nodes, List.mem_map] at hcp hcn
    obtain ⟨p, hp, rfl⟩ := hcp
    obtain ⟨n, hn, rfl⟩ := hcn
    rw [computeNode_dependents, computeNode_id, computeNode_id,
      computeNode_prerequisites]
    have hpid : p.id ∈ tree.nodes.map (fun n => n.id) :=
      List.mem_map_of_mem (fun n => n.id) hp
    rw [buildDependentsMap_lookup, if_pos hpid]
    simp only [Option.getD_some]
    rw [depContrib_mem]
    constructor
    · rintro ⟨m, hm, hid, hpm⟩
      have hmn : m = n :=
        eq_of_mem_of_nodup_ids (fun n => n.id) tree.nodes hnd m n hm hn hid
      exact hmn ▸ hpm
    · intro hmem
      exact ⟨n, hn, rfl, hmem⟩
  · intro n hn
    rw [buildDependentsMap_lookup,
      if_pos (List.mem_map_of_mem (fun n => n.id) hn)]
    simp

/-- The concrete chain tree A ← B ← C used by several witnesses. -/
def chainTree : TechTree :=
  { name := "chain"
    nodes := [ { id := "A", name := "A" },
               { id := "B", name := "B", prerequisites := ["A"] },
               { id := "C", name := "C", prerequisites := ["B"] } ] }

/-- Witness for C4 at the concrete chain tree. -/
theorem claim4_witness :
    (∀ cp ∈ (computeTechTree chainTree).nodes,
      ∀ cn ∈ (computeTechTree chainTree).nodes,
        (cn.id ∈ cp.dependents ↔ cp.id ∈ cn.prerequisites)) ∧
    (∀ n ∈ chainTree.nodes,
      alookup (buildDependentsMap chainTree.nodes) n.id ≠ none) :=
  claim4_theorem chainTree (by decide)

/-!
## Equation lemmas for `getTier` / `getTierMax`
-/

theorem getTierMax_nil (f : String → TierState → Nat × TierState) (acc : Nat)
    (s : TierState) : getTierMax f [] acc s = (acc, s) := rfl

theorem getTierMax_cons (f : String → TierState → Nat × TierState)
    (p : String) (ps : List String) (acc : Nat) (s : TierState) :
    getTierMax f (p :: ps) acc s =
      getTierMax f ps (max acc (f p s).1) (f p s).2 := rfl

theorem getTier_zero (nm : List (String × TechNode)) (nodeId : String)
    (s : TierState) : getTier nm 0 nodeId s = (1, s) := rfl

theorem getTier_cached (nm : List (String × TechNode)) (fuel : Nat)
    (nodeId : String) (s : TierState) (t : Nat)
    (h : alookup s.tiers nodeId = some t) :
    getTier nm (fuel + 1) nodeId s = (t, s) := by
  simp only [getTier, h]

theorem getTier_nonode (nm : List (String × TechNode)) (fuel : Nat)
    (nodeId : String) (s : TierState)
    (h1 : alookup s.tiers nodeId = none) (h2 : alookup nm nodeId = none) :
    getTier nm (fuel + 1) nodeId s = (1, s) := by
  simp only [getTier, h1, h2]

theorem getTier_explicit (nm : List (String × TechNode)) (fuel : Nat)
    (nodeId : String) (s : TierState) (node : TechNode) (t : Nat)
    (h1 : alookup s.tiers nodeId = none) (h2 : alookup nm nodeId = some node)
    (h3 : node.tier = some t) :
    getTier nm (fuel + 1) nodeId s =
      (t, ⟨aset s.tiers nodeId t, s.visiting, s.warnings⟩) := by
  simp only [getTier, h1, h2, h3]

theorem getTier_visiting (nm : List (String × TechNode)) (fuel : Nat)
    (nodeId : String) (s : TierState) (node : TechNode)
    (h1 : alookup s.tiers nodeId = none) (h2 : alookup nm nodeId = some node)
    (h3 : node.tier = none) (h4 : nodeId ∈ s.visiting) :
    getTier nm (fuel + 1) nodeId s =
      (1, ⟨s.tiers, s.visiting, s.warnings ++ [nodeId]⟩) := by
  simp only [getTier, h1, h2, h3, if_pos h4]

theorem getTier_noprereq (nm : List (String × TechNode)) (fuel : Nat)
    (nodeId : String) (s : TierState) (node : TechNode)
    (h1 : alookup s.tiers nodeId = none) (h2 : alookup nm nodeId = some node)
    (h3 : node.tier = none) (h4 : nodeId ∉ s.visiting)
    (h5 : node.prerequisites = []) :
    getTier nm (fuel + 1) nodeId s =
      (1, ⟨aset s.tiers nodeId 1, s.visiting, s.warnings⟩) := by
  simp only [getTier, h1, h2, h3, if_neg h4, if_pos h5]
  simp [List.erase_cons_head]

theorem getTier_general (nm : List (String × TechNode)) (fuel : Nat)
    (nodeId : String) (s : TierState) (node : TechNode)
    (h1 : alookup s.tiers nodeId = none) (h2 : alookup nm nodeId = some node)
    (h3 : node.tier = none) (h4 : nodeId ∉ s.visiting)
    (h5 : node.prerequisites ≠ []) :
    getTier nm (fuel + 1) nodeId s =
      ((getTierMax (fun p st => getTier nm fuel p st) node.prerequisites 0
          ⟨s.tiers, nodeId :: s.visiting, s.warnings⟩).1 + 1,
       ⟨aset (getTierMax (fun p st => getTier nm fuel p st) node.prerequisites 0
          ⟨s.tiers, nodeId :: s.visiting, s.warnings⟩).2.tiers nodeId
          ((getTierMax (fun p st => getTier nm fuel p st) node.prerequisites 0
            ⟨s.tiers, nodeId :: s.visiting, s.warnings⟩).1 + 1),
        (getTierMax (fun p st => getTier nm fuel p st) node.prerequisites 0
          ⟨s.tiers, nodeId :: s.visiting, s.warnings⟩).2.visiting.erase nodeId,
        (getTierMax (fun p st => getTier nm fuel p st) node.prerequisites 0
          ⟨s.tiers, nodeId :: s.visiting, s.warnings⟩).2.warnings⟩) := by
  simp only [getTier, h1, h2, h3, if_neg h4, if_neg h5]

/-!
## Claim C10 — totality of tier computation on unvalidated trees
-/

/-- Invariant for C10: every memoized tier is at least 1 and belongs to a
known node id. -/
def TiersPos (nm : List (String × TechNode)) (t : List (String × Nat)) :
    Prop :=
  ∀ k v, alookup t k = some v → 1 ≤ v ∧ alookup nm k ≠ none

theorem TiersPos_aset (nm : List (String × TechNode))
    (t : List (String × Nat)) (h : TiersPos nm t) (k : String) (v : Nat)
    (hv : 1 ≤ v) (hk : alookup nm k ≠ none) :
    TiersPos nm (aset t k v) := by
  intro k2 v2 h2
  rcases alookup_aset_cases t k v k2 v2 h2 with ⟨hk2, hv2⟩ | h3
  · subst hk2
    exact ⟨hv2 ▸ hv, hk⟩
  · exact h k2 v2 h3

theorem getTier_pos (nm : List (String × TechNode))
    (hpos : ∀ k nd, alookup nm k = some nd → ∀ t, nd.tier = some t → 1 ≤ t) :
    ∀ fuel nodeId s, TiersPos nm s.tiers →
      1 ≤ (getTier nm fuel nodeId s).1 ∧
      TiersPos nm (getTier nm fuel nodeId s).2.tiers := by
  intro fuel
  induction fuel with
  | zero =>
    intro nodeId s hs
    rw [getTier_zero]
    exact ⟨le_refl 1, hs⟩
  | succ fuel ih =>
    intro nodeId s hs
    have hmax : ∀ ps acc s2, TiersPos nm s2.tiers →
        TiersPos nm ((getTierMax (fun p st => getTier nm fuel p st) ps acc
          s2).2).tiers := by
      intro ps
      induction ps with
      | nil =>
        intro acc s2 h2
        rw [getTierMax_nil]
        exact h2
      | cons p ps ihp =>
        intro acc s2 h2
        rw [getTierMax_cons]
        exact ihp _ _ (ih p s2 h2).2
    cases hc : alookup s.tiers nodeId with
    | some t =>
      rw [getTier_cached nm fuel nodeId s t hc]
      exact ⟨(hs nodeId t hc).1, hs⟩
    | none =>
      cases hn : alookup nm nodeId with
      | none =>
        rw [getTier_nonode nm fuel nodeId s hc hn]
        exact ⟨le_refl 1, hs⟩
      | some node =>
        have hnm : alookup nm nodeId ≠ none := by rw [hn]; simp
        cases ht : node.tier with
        | some t =>
          rw [getTier_explicit nm fuel nodeId s node t hc hn ht]
          refine ⟨hpos nodeId node hn t ht, ?_⟩
          exact TiersPos_aset nm s.tiers hs nodeId t (hpos nodeId node hn t ht)
            hnm
        | none =>
          by_cases hv : nodeId ∈ s.visiting
          · rw [getTier_visiting nm fuel nodeId s node hc hn ht hv]
            exact ⟨le_refl 1, hs⟩
          · by_cases hp : node.prerequisites = []
            · rw [getTier_noprereq nm fuel nodeId s node hc hn ht hv hp]
              exact ⟨le_refl 1,
                TiersPos_aset nm s.tiers hs nodeId 1 (le_refl 1) hnm⟩
            · rw [getTier_general nm fuel nodeId s node hc hn ht hv hp]
              refine ⟨Nat.le_add_left 1 _, ?_⟩
              exact TiersPos_aset nm _
                (hmax node.prerequisites 0 ⟨s.tiers, nodeId :: s.visiting,
                  s.warnings⟩ hs) nodeId _ (Nat.le_add_left 1 _) hnm

theorem calculateTiers_pos (nm : List (String × TechNode))
    (hpos : ∀ k nd, alookup nm k = some nd → ∀ t, nd.tier = some t → 1 ≤ t)
    (fuel : Nat) :
    ∀ (l : List TechNode) (s : TierState), TiersPos nm s.tiers →
      TiersPos nm (l.foldl (fun s2 n => (getTier nm fuel n.id s2).2) s).tiers := by
  intro l
  induction l with
  | nil => intro s hs; exact hs
  | cons n ns ih =>
    intro s hs
    simp only [List.foldl_cons]
    exact ih _ ((getTier_pos nm hpos fuel n.id s hs).2)

theorem computeNode_computedTier (t : List (String × Nat))
    (d : List (String × List String)) (n : TechNode) :
    (computeNode t d n).computedTier = match n.tier with
      | some t2 => t2
      | none => (alookup t n.id).getD 1 := rfl

/-- C10: tier computation is total on unvalidated trees.  A prerequisite id
matching no node is treated as tier 1 (`getTier` returns 1 and leaves the
state unchanged, and the memo map never acquires entries outside the tree's
node ids), and every node of the computed tree receives a computed tier of
at least 1 (given the data model's constraint that explicit tiers, when
present, are positive). -/
theorem claim10_theorem (tree : TechTree)
    (hpos : ∀ n ∈ tree.nodes, ∀ t, n.tier = some t → 1 ≤ t) :
    (∀ p, alookup (buildNodeMap tree.nodes) p = none →
      ∀ fuel s, alookup s.tiers p = none →
        getTier (buildNodeMap tree.nodes) fuel p s = (1, s)) ∧
    (∀ k v,
      alookup (calculateTiers tree.nodes (buildNodeMap tree.nodes)).tiers k =
        some v → k ∈ tree.nodes.map (fun n => n.id)) ∧
    (∀ cn ∈ (computeTechTree tree).nodes, 1 ≤ cn.computedTier) := by
  have hposm : ∀ k nd, alookup (buildNodeMap tree.nodes) k = some nd →
      ∀ t, nd.tier = some t → 1 ≤ t := by
    intro k nd h t ht
    exact hpos nd (buildNodeMap_mem tree.nodes k nd h).1 t ht
  have hfinal : TiersPos (buildNodeMap tree.nodes)
      (calculateTiers tree.nodes (buildNodeMap tree.nodes)).tiers := by
    rw [calculateTiers]
    exact calculateTiers_pos (buildNodeMap tree.nodes) hposm
      (tree.nodes.length + 1) tree.nodes initialTierState
      (fun k v h => by cases h)
  refine ⟨?_, ?_, ?_⟩
  · intro p hp fuel s hs
    cases fuel with
    | zero => exact getTier_zero _ p s
    | succ fuel => exact getTier_nonode _ fuel p s hs hp
  · intro k v h
    have := (hfinal k v h).2
    by_contra hk
    apply this
    apply buildNodeMap_none
    intro n hn hid
    exact hk (hid ▸ List.mem_map_of_mem (fun n => n.id) hn)
  · intro cn hcn
    rw [computeTechTree_nodes, List.mem_map] at hcn
    obtain ⟨n, hn, rfl⟩ := hcn
    rw [computeNode_computedTier]
    cases ht : n.tier with
    | some t => exact hpos n hn t ht
    | none =>
      cases hl : alookup
          (calculateTiers tree.nodes (buildNodeMap tree.nodes)).tiers n.id with
      | none => simp
      | some v =>
        simp only [Option.getD_some]
        exact (hfinal n.id v hl).1

/-- A tree with a dangling prerequisite, for the C10 witness. -/
def claim10Tree : TechTree :=
  { name := "g"
    nodes := [ { id := "D", name := "D", prerequisites := ["ghost"] } ] }

/-- Witness for C10 at the dangling-prerequisite tree. -/
theorem claim10_witness :
    (∀ p, alookup (buildNodeMap claim10Tree.nodes) p = none →
      ∀ fuel s, alookup s.tiers p = none →
        getTier (buildNodeMap claim10Tree.nodes) fuel p s = (1, s)) ∧
    (∀ k v,
      alookup (calculateTiers claim10Tree.nodes
        (buildNodeMap claim10Tree.nodes)).tiers k = some v →
      k ∈ claim10Tree.nodes.map (fun n => n.id)) ∧
    (∀ cn ∈ (computeTechTree claim10Tree).nodes, 1 ≤ cn.computedTier) :=
  claim10_theorem claim10Tree (by decide)

/-!
## Graph helpers for C2 and C9
-/

theorem transGen_rank (nodes : List TechNode) (rk : String → Nat)
    (h : ∀ n ∈ nodes, ∀ p ∈ n.prerequisites, rk p < rk n.id) :
    ∀ a b, Relation.TransGen (prereqEdge nodes) a b → rk b < rk a := by
  intro a b htg
  induction htg with
  | single hedge =>
    obtain ⟨n, hn, hid, hb⟩ := hedge
    exact hid ▸ h n hn _ hb
  | tail _ hedge ih =>
    obtain ⟨n, hn, hid, hb⟩ := hedge
    have h2 := h n hn _ hb
    rw [hid] at h2
    omega

/-- A decidable sufficient condition for acyclicity of a concrete node
list: a ranking function that strictly decreases along prerequisite
edges. -/
theorem acyclicPrereqs_of_rank (nodes : List TechNode) (rk : String → Nat)
    (h : ∀ n ∈ nodes, ∀ p ∈ n.prerequisites, rk p < rk n.id) :
    AcyclicPrereqs nodes :=
  fun a hta => absurd (transGen_rank nodes rk h a a hta) (lt_irrefl _)

/-- The node ids of a node list, in order. -/
def idsOf (nodes : List TechNode) : List String :=
  nodes.map (fun n => n.id)

/-- The number of node ids not yet in the visiting set: the measure that
bounds the depth of the `getTier` recursion. -/
def remainingIds (nodes : List TechNode) (vis : List String) : Nat :=
  ((idsOf nodes).filter (fun x => decide (x ∉ vis))).length

theorem filter_decide_cons (x : String) (l : List String) (P : String → Prop)
    [DecidablePred P] :
    List.filter (fun y => decide (P y)) (x :: l) =
      if P x then x :: List.filter (fun y => decide (P y)) l
      else List.filter (fun y => decide (P y)) l := by
  by_cases h : P x <;> simp [List.filter_cons, h]

theorem length_filter_not_mem_cons (l : List String) (hnd : l.Nodup)
    (n : String) (vis : List String) (hn : n ∈ l) (hnv : n ∉ vis) :
    (l.filter (fun x => decide (x ∉ n :: vis))).length + 1 =
      (l.filter (fun x => decide (x ∉ vis))).length := by
  induction l with
  | nil => cases hn
  | cons a rest ih =>
    rw [List.nodup_cons] at hnd
    rcases List.mem_cons.mp hn with rfl | hmem
    · have hfeq : rest.filter (fun x => decide (x ∉ n :: vis)) =
          rest.filter (fun x => decide (x ∉ vis)) := by
        apply List.filter_congr
        intro x hx
        have hxn : x ≠ n := fun h => hnd.1 (h ▸ hx)
        simp [List.mem_cons, hxn]
      have c1 : ¬ (n ∉ n :: vis) := by simp
      rw [filter_decide_cons, filter_decide_cons, if_neg c1, if_pos hnv, hfeq,
        List.length_cons]
    · have han : a ≠ n := fun h => hnd.1 (h ▸ hmem)
      have hrec := ih hnd.2 hmem
      by_cases ha : a ∈ vis
      · have c1 : ¬ (a ∉ n :: vis) := by simp [ha]
        have c2 : ¬ (a ∉ vis) := by simp [ha]
        rw [filter_decide_cons, filter_decide_cons, if_neg c1, if_neg c2]
        exact hrec
      · have c1 : a ∉ n :: vis := by simp [ha, han]
        rw [filter_decide_cons, filter_decide_cons, if_pos c1, if_pos ha,
          List.length_cons, List.length_cons]
        omega

theorem remainingIds_cons (nodes : List TechNode)
    (hnd : (idsOf nodes).Nodup) (n : String) (vis : List String)
    (hn : n ∈ idsOf nodes) (hnv : n ∉ vis) :
    remainingIds nodes (n :: vis) + 1 = remainingIds nodes vis :=
  length_filter_not_mem_cons (idsOf nodes) hnd n vis hn hnv

theorem remainingIds_nil (nodes : List TechNode) :
    remainingIds nodes [] = nodes.length := by
  unfold remainingIds
  rw [List.filter_eq_self.mpr (by intro x _; simp)]
  exact List.length_map nodes _

/-!
## Claim C2 — invariants of the memoized tier computation (acyclic case)
-/

/-- Every memoized entry is justified: it is the node's explicit tier, or at
least 1 and strictly above every resolvable prerequisite's memoized tier. -/
def TiersGood (nm : List (String × TechNode)) (t : List (String × Nat)) :
    Prop :=
  ∀ k v, alookup t k = some v → ∃ nd, alookup nm k = some nd ∧
    (nd.tier = some v ∨
     (nd.tier = none ∧ 1 ≤ v ∧ ∀ p ∈ nd.prerequisites,
        ∀ pn, alookup nm p = some pn →
          ∃ w, alookup t p = some w ∧ w + 1 ≤ v))

/-- Every id in the visiting set belongs to a known node without an
explicit tier (only such nodes enter the general recursion path). -/
def VisitingOK (nm : List (String × TechNode)) (vis : List String) : Prop :=
  ∀ x ∈ vis, ∃ nd, alookup nm x = some nd ∧ nd.tier = none

/-- Every id in the visiting set has a (non-empty) prerequisite path to the
node currently being resolved. -/
def VisitingPaths (nodes : List TechNode) (vis : List String)
    (target : String) : Prop :=
  ∀ x ∈ vis, Relation.TransGen (prereqEdge nodes) x target

theorem TiersGood_aset_explicit (nm : List (String × TechNode))
    (t : List (String × Nat)) (k : String) (v : Nat) (nd : TechNode)
    (hg : TiersGood nm t) (hk : alookup t k = none)
    (hnd : alookup nm k = some nd) (htier : nd.tier = some v) :
    TiersGood nm (aset t k v) := by
  intro k2 v2 h2
  rcases alookup_aset_cases t k v k2 v2 h2 with ⟨hk2, hv2⟩ | h3
  · subst hk2
    exact ⟨nd, hnd, Or.inl (hv2 ▸ htier)⟩
  · obtain ⟨nd2, hnd2, hdisj⟩ := hg k2 v2 h3
    refine ⟨nd2, hnd2, ?_⟩
    rcases hdisj with h4 | ⟨h4, h5, h6⟩
    · exact Or.inl h4
    · refine Or.inr ⟨h4, h5, ?_⟩
      intro p hp pn hpn
      obtain ⟨w, hw, hle⟩ := h6 p hp pn hpn
      refine ⟨w, ?_, hle⟩
      by_cases hpk : p = k
      · rw [hpk] at hw
        rw [hw] at hk
        cases hk
      · rw [alookup_aset_ne t k v p (fun h => hpk h.symm)]
        exact hw

theorem TiersGood_aset_computed (nm : List (String × TechNode))
    (t : List (String × Nat)) (k : String) (v : Nat) (nd : TechNode)
    (hg : TiersGood nm t) (hk : alookup t k = none)
    (hnd : alookup nm k = some nd) (htier : nd.tier = none) (hv : 1 ≤ v)
    (hps : ∀ p ∈ nd.prerequisites, ∀ pn, alookup nm p = some pn →
      ∃ w, alookup t p = some w ∧ w + 1 ≤ v)
    (hkp : k ∉ nd.prerequisites) :
    TiersGood nm (aset t k v) := by
  intro k2 v2 h2
  rcases alookup_aset_cases t k v k2 v2 h2 with ⟨hk2, hv2⟩ | h3
  · subst hk2
    subst hv2
    refine ⟨nd, hnd, Or.inr ⟨htier, hv, ?_⟩⟩
    intro p hp pn hpn
    obtain ⟨w, hw, hle⟩ := hps p hp pn hpn
    have hpk : p ≠ k2 := fun h => hkp (h ▸ hp)
    refine ⟨w, ?_, hle⟩
    rw [alookup_aset_ne t k2 v2 p (fun h => hpk h.symm)]
    exact hw
  · obtain ⟨nd2, hnd2, hdisj⟩ := hg k2 v2 h3
    refine ⟨nd2, hnd2, ?_⟩
    rcases hdisj with h4 | ⟨h4, h5, h6⟩
    · exact Or.inl h4
    · refine Or.inr ⟨h4, h5, ?_⟩
      intro p hp pn hpn
      obtain ⟨w, hw, hle⟩ := h6 p hp pn hpn
      refine ⟨w, ?_, hle⟩
      by_cases hpk : p = k
      · rw [hpk] at hw
        rw [hw] at hk
        cases hk
      · rw [alookup_aset_ne t k v p (fun h => hpk h.symm)]
        exact hw

/-- The central invariant lemma for the acyclic case: `getTier` preserves
the visiting set, only extends the memo map (leaving entries of visiting
ids untouched), keeps every entry justified (`TiersGood`), and caches the
id it was asked about whenever that id names a node. -/
theorem getTier_spec (nodes : List TechNode)
    (hnd : (idsOf nodes).Nodup) (hacyc : AcyclicPrereqs nodes) :
    ∀ fuel nodeId s,
      remainingIds nodes s.visiting < fuel →
      VisitingPaths nodes s.visiting nodeId →
      VisitingOK (buildNodeMap nodes) s.visiting →
      TiersGood (buildNodeMap nodes) s.tiers →
      (getTier (buildNodeMap nodes) fuel nodeId s).2.visiting = s.visiting ∧
      (∀ k w, alookup s.tiers k = some w →
        alookup (getTier (buildNodeMap nodes) fuel nodeId s).2.tiers k =
          some w) ∧
      (∀ k, k ∈ s.visiting →
        alookup (getTier (buildNodeMap nodes) fuel nodeId s).2.tiers k =
          alookup s.tiers k) ∧
      TiersGood (buildNodeMap nodes)
        (getTier (buildNodeMap nodes) fuel nodeId s).2.tiers ∧
      (∀ nd, alookup (buildNodeMap nodes) nodeId = some nd →
        alookup (getTier (buildNodeMap nodes) fuel nodeId s).2.tiers nodeId =
          some (getTier (buildNodeMap nodes) fuel nodeId s).1) := by
  intro fuel
  induction fuel with
  | zero =>
    intro nodeId s hfuel
    exact absurd hfuel (Nat.not_lt_zero _)
  | succ fuel ih =>
    intro nodeId s hfuel hpaths hvok hgood
    have hmaxspec : ∀ (ps : List String) (root : String),
        (∀ p ∈ ps, prereqEdge nodes root p) →
        ∀ (acc : Nat) (s2 : TierState),
          remainingIds nodes s2.visiting < fuel →
          (∀ v ∈ s2.visiting,
            Relation.ReflTransGen (prereqEdge nodes) v root) →
          VisitingOK (buildNodeMap nodes) s2.visiting →
          TiersGood (buildNodeMap nodes) s2.tiers →
          (getTierMax (fun p st => getTier (buildNodeMap nodes) fuel p st)
            ps acc s2).2.visiting = s2.visiting ∧
          (∀ k w, alookup s2.tiers k = some w →
            alookup (getTierMax
              (fun p st => getTier (buildNodeMap nodes) fuel p st)
              ps acc s2).2.tiers k = some w) ∧
          (∀ k, k ∈ s2.visiting →
            alookup (getTierMax
              (fun p st => getTier (buildNodeMap nodes) fuel p st)
              ps acc s2).2.tiers k = alookup s2.tiers k) ∧
          TiersGood (buildNodeMap nodes)
            (getTierMax (fun p st => getTier (buildNodeMap nodes) fuel p st)
              ps acc s2).2.tiers ∧
          acc ≤ (getTierMax
            (fun p st => getTier (buildNodeMap nodes) fuel p st)
            ps acc s2).1 ∧
          (∀ p ∈ ps, ∀ pn, alookup (buildNodeMap nodes) p = some pn →
            ∃ w, alookup (getTierMax
              (fun p st => getTier (buildNodeMap nodes) fuel p st)
              ps acc s2).2.tiers p = some w ∧
              w ≤ (getTierMax
                (fun p st => getTier (buildNodeMap nodes) fuel p st)
                ps acc s2).1) := by
      intro ps
      induction ps with
      | nil =>
        intro root _ acc s2 _ _ _ h4
        rw [getTierMax_nil]
        exact ⟨rfl, fun k w h => h, fun k _ => rfl, h4, le_refl acc,
          fun p hp => absurd hp (List.not_mem_nil p)⟩
      | cons p ps ihp =>
        intro root hedges acc s2 h1 h2 h3 h4
        rw [getTierMax_cons]
        have hpe : prereqEdge nodes root p := hedges p (List.mem_cons_self p ps)
        have hcall := ih p s2 h1
          (fun v hv => Relation.TransGen.tail' (h2 v hv) hpe) h3 h4
        obtain ⟨hv1, hext1, hkeys1, hgood1, hself1⟩ := hcall
        have hrec := ihp root
          (fun q hq => hedges q (List.mem_cons_of_mem p hq))
          (max acc (getTier (buildNodeMap nodes) fuel p s2).1)
          (getTier (buildNodeMap nodes) fuel p s2).2
          (by rw [hv1]; exact h1) (by rw [hv1]; exact h2)
          (by rw [hv1]; exact h3) hgood1
        obtain ⟨hv2, hext2, hkeys2, hgood2, hacc2, hps2⟩ := hrec
        refine ⟨by rw [hv2, hv1], ?_, ?_, hgood2, ?_, ?_⟩
        · intro k w hw
          exact hext2 k w (hext1 k w hw)
        · intro k hk
          rw [hkeys2 k (by rw [hv1]; exact hk), hkeys1 k hk]
        · exact le_trans (le_max_left acc _) hacc2
        · intro q hq pn hpn
          rcases List.mem_cons.mp hq with rfl | hq2
          · have hcache := hself1 pn hpn
            exact ⟨(getTier (buildNodeMap nodes) fuel q s2).1,
              hext2 _ _ hcache, le_trans (le_max_right acc _) hacc2⟩
          · exact hps2 q hq2 pn hpn
    cases hc : alookup s.tiers nodeId with
    | some t =>
      rw [getTier_cached (buildNodeMap nodes) fuel nodeId s t hc]
      exact ⟨rfl, fun k w h => h, fun k _ => rfl, hgood, fun nd _ => hc⟩
    | none =>
      cases hn : alookup (buildNodeMap nodes) nodeId with
      | none =>
        rw [getTier_nonode (buildNodeMap nodes) fuel nodeId s hc hn]
        refine ⟨rfl, fun k w h => h, fun k _ => rfl, hgood, ?_⟩
        intro nd h
        exact Option.noConfusion h
      | some node =>
        cases ht : node.tier with
        | some t =>
          have hniv : nodeId ∉ s.visiting := by
            intro hin
            obtain ⟨nd2, hnd2, ht2⟩ := hvok nodeId hin
            rw [hn] at hnd2
            injection hnd2 with h5
            rw [h5] at ht
            exact Option.noConfusion (ht.symm.trans ht2)
          rw [getTier_explicit (buildNodeMap nodes) fuel nodeId s node t hc
            hn ht]
          refine ⟨rfl, ?_, ?_, ?_, ?_⟩
          · intro k w hw
            by_cases hk : nodeId = k
            · rw [← hk] at hw
              rw [hw] at hc
              cases hc
            · rw [alookup_aset_ne s.tiers nodeId t k hk]
              exact hw
          · intro k hk
            have hkne : nodeId ≠ k := fun h => hniv (h ▸ hk)
            exact alookup_aset_ne s.tiers nodeId t k hkne
          · exact TiersGood_aset_explicit (buildNodeMap nodes) s.tiers nodeId
              t node hgood hc hn ht
          · intro nd _
            rw [alookup_aset_self]
        | none =>
          by_cases hv : nodeId ∈ s.visiting
          · exact absurd (hpaths nodeId hv) (hacyc nodeId)
          · by_cases hp : node.prerequisites = []
            · rw [getTier_noprereq (buildNodeMap nodes) fuel nodeId s node hc
                hn ht hv hp]
              refine ⟨rfl, ?_, ?_, ?_, ?_⟩
              · intro k w hw
                by_cases hk : nodeId = k
                · rw [← hk] at hw
                  rw [hw] at hc
                  cases hc
                · rw [alookup_aset_ne s.tiers nodeId 1 k hk]
                  exact hw
              · intro k hk
                have hkne : nodeId ≠ k := fun h => hv (h ▸ hk)
                exact alookup_aset_ne s.tiers nodeId 1 k hkne
              · apply TiersGood_aset_computed (buildNodeMap nodes) s.tiers
                  nodeId 1 node hgood hc hn ht (le_refl 1)
                · intro p hp2
                  rw [hp] at hp2
                  exact absurd hp2 (List.not_mem_nil p)
                · rw [hp]
                  exact List.not_mem_nil nodeId
              · intro nd _
                rw [alookup_aset_self]
            · have hmem := buildNodeMap_mem nodes nodeId node hn
              have hedges : ∀ p ∈ node.prerequisites,
                  prereqEdge nodes nodeId p :=
                fun p hp2 => ⟨node, hmem.1, hmem.2, hp2⟩
              have hidm : nodeId ∈ idsOf nodes :=
                hmem.2 ▸ List.mem_map_of_mem (fun n => n.id) hmem.1
              have hfuel2 :
                  remainingIds nodes (nodeId :: s.visiting) < fuel := by
                have := remainingIds_cons nodes hnd nodeId s.visiting hidm hv
                omega
              have hM := hmaxspec node.prerequisites nodeId hedges 0
                ⟨s.tiers, nodeId :: s.visiting, s.warnings⟩
                hfuel2
                (by intro v hv2
                    rcases List.mem_cons.mp hv2 with rfl | hv3
                    · exact Relation.ReflTransGen.refl
                    · exact (hpaths v hv3).to_reflTransGen)
                (by intro x hx
                    rcases List.mem_cons.mp hx with rfl | hx2
                    · exact ⟨node, hn, ht⟩
                    · exact hvok x hx2)
                hgood
              obtain ⟨hMv, hMext, hMkeys, hMgood, _, hMps⟩ := hM
              have hM2none : alookup (getTierMax
                  (fun p st => getTier (buildNodeMap nodes) fuel p st)
                  node.prerequisites 0
                  ⟨s.tiers, nodeId :: s.visiting, s.warnings⟩).2.tiers
                  nodeId = none := by
                rw [hMkeys nodeId (List.mem_cons_self nodeId s.visiting)]
                exact hc
              rw [getTier_general (buildNodeMap nodes) fuel nodeId s node hc
                hn ht hv hp]
              refine ⟨?_, ?_, ?_, ?_, ?_⟩
              · show (getTierMax
                  (fun p st => getTier (buildNodeMap nodes) fuel p st)
                  node.prerequisites 0
                  ⟨s.tiers, nodeId :: s.visiting,
                    s.warnings⟩).2.visiting.erase nodeId = s.visiting
                rw [hMv]
                exact List.erase_cons_head nodeId s.visiting
              · intro k w hw
                by_cases hk : nodeId = k
                · rw [← hk] at hw
                  rw [hw] at hc
                  cases hc
                · rw [alookup_aset_ne _ nodeId _ k hk]
                  exact hMext k w hw
              · intro k hk
                have hkne : nodeId ≠ k := fun h => hv (h ▸ hk)
                rw [alookup_aset_ne _ nodeId _ k hkne]
                exact hMkeys k (List.mem_cons_of_mem nodeId hk)
              · apply TiersGood_aset_computed (buildNodeMap nodes) _ nodeId _
                  node hMgood hM2none hn ht (Nat.le_add_left 1 _)
                · intro p hp2 pn hpn
                  obtain ⟨w, hw, hle⟩ := hMps p hp2 pn hpn
                  exact ⟨w, hw, by omega⟩
                · intro hin
                  exact hacyc nodeId
                    (Relation.TransGen.single (hedges nodeId hin))
              · intro nd _
                rw [alookup_aset_self]

/-- After `calculateTiers` finishes (acyclic case), the memo map is
justified and contains an entry for every node id. -/
theorem calculateTiers_good (nodes : List TechNode)
    (hnd : (idsOf nodes).Nodup) (hacyc : AcyclicPrereqs nodes) :
    TiersGood (buildNodeMap nodes)
      (calculateTiers nodes (buildNodeMap nodes)).tiers ∧
    (∀ n ∈ nodes,
      alookup (calculateTiers nodes (buildNodeMap nodes)).tiers n.id ≠
        none) := by
  have key : ∀ (l : List TechNode) (s : TierState),
      s.visiting = [] → TiersGood (buildNodeMap nodes) s.tiers →
      (l.foldl (fun s2 n =>
        (getTier (buildNodeMap nodes) (nodes.length + 1) n.id s2).2)
        s).visiting = [] ∧
      TiersGood (buildNodeMap nodes)
        (l.foldl (fun s2 n =>
          (getTier (buildNodeMap nodes) (nodes.length + 1) n.id s2).2)
          s).tiers ∧
      (∀ k w, alookup s.tiers k = some w →
        alookup (l.foldl (fun s2 n =>
          (getTier (buildNodeMap nodes) (nodes.length + 1) n.id s2).2)
          s).tiers k = some w) ∧
      (∀ n ∈ l, alookup (buildNodeMap nodes) n.id ≠ none →
        alookup (l.foldl (fun s2 n =>
          (getTier (buildNodeMap nodes) (nodes.length + 1) n.id s2).2)
          s).tiers n.id ≠ none) := by
    intro l
    induction l with
    | nil =>
      intro s h1 h2
      exact ⟨h1, h2, fun k w h => h,
        fun n hn => absurd hn (List.not_mem_nil n)⟩
    | cons n l ihl =>
      intro s h1 h2
      simp only [List.foldl_cons]
      have hfuel : remainingIds nodes s.visiting < nodes.length + 1 := by
        rw [h1, remainingIds_nil]
        omega
      have hspec := getTier_spec nodes hnd hacyc (nodes.length + 1) n.id s
        hfuel
        (by rw [h1]; intro x hx; cases hx)
        (by rw [h1]; intro x hx; cases hx) h2
      obtain ⟨hv1, hext1, _, hgood1, hself1⟩ := hspec
      have hrec := ihl
        (getTier (buildNodeMap nodes) (nodes.length + 1) n.id s).2
        (by rw [hv1, h1]) hgood1
      obtain ⟨hrv, hrgood, hrext, hrcache⟩ := hrec
      refine ⟨hrv, hrgood, ?_, ?_⟩
      · intro k w hw
        exact hrext k w (hext1 k w hw)
      · intro n2 hn2 hnm
        rcases List.mem_cons.mp hn2 with rfl | hmem
        · cases hcase : alookup (buildNodeMap nodes) n2.id with
          | none => exact absurd hcase hnm
          | some nd =>
            have hc1 := hself1 nd hcase
            have hc2 := hrext _ _ hc1
            rw [hc2]
            simp
        · exact hrcache n2 hmem hnm
  have hkey := key nodes initialTierState rfl (fun k v h => by cases h)
  exact ⟨hkey.2.1, fun n hn =>
    hkey.2.2.2 n hn (buildNodeMap_isSome nodes n hn)⟩

/-- C2 (amended): in an acyclic tree with unique node ids, every node N
without an explicit tier satisfies
`computedTier(N) ≥ computedTier(P) + 1` for each of its prerequisites P. -/
theorem claim2_amended (tree : TechTree)
    (hnd : (tree.nodes.map (fun n => n.id)).Nodup)
    (hacyc : AcyclicPrereqs tree.nodes)
    (N P : TechNode) (hN : N ∈ tree.nodes) (hP : P ∈ tree.nodes)
    (hpr : P.id ∈ N.prerequisites) (hne : P.id ≠ N.id)
    (hexp : N.tier = none) :
    ∀ cn ∈ (computeTechTree tree).nodes,
      ∀ cp ∈ (computeTechTree tree).nodes,
        cn.id = N.id → cp.id = P.id →
          cp.computedTier + 1 ≤ cn.computedTier := by
  obtain ⟨hgood, hcache⟩ := calculateTiers_good tree.nodes hnd hacyc
  intro cn hcn cp hcp hcnid hcpid
  rw [computeTechTree_nodes, List.mem_map] at hcn hcp
  obtain ⟨n0, hn0, rfl⟩ := hcn
  obtain ⟨p0, hp0, rfl⟩ := hcp
  rw [computeNode_id] at hcnid hcpid
  have hn0N : N = n0 :=
    (eq_of_mem_of_nodup_ids (fun n => n.id) tree.nodes hnd n0 N hn0 hN
      hcnid).symm
  have hp0P : P = p0 :=
    (eq_of_mem_of_nodup_ids (fun n => n.id) tree.nodes hnd p0 P hp0 hP
      hcpid).symm
  subst hn0N
  subst hp0P
  have hNm : alookup (buildNodeMap tree.nodes) N.id = some N :=
    buildNodeMap_self tree.nodes hnd N hN
  have hPm : alookup (buildNodeMap tree.nodes) P.id = some P :=
    buildNodeMap_self tree.nodes hnd P hP
  have hNcache := hcache N hN
  cases htN : alookup
      (calculateTiers tree.nodes (buildNodeMap tree.nodes)).tiers N.id with
  | none => exact absurd htN hNcache
  | some vN =>
    obtain ⟨nd, hndm, hdisj⟩ := hgood N.id vN htN
    rw [hNm] at hndm
    injection hndm with hndm2
    subst hndm2
    rcases hdisj with hx | ⟨_, _, hps⟩
    · rw [hexp] at hx
      cases hx
    · obtain ⟨w, hw, hle⟩ := hps P.id hpr P hPm
      have hcnTier : (computeNode
          (calculateTiers tree.nodes (buildNodeMap tree.nodes)).tiers
          (buildDependentsMap tree.nodes) N).computedTier = vN := by
        rw [computeNode_computedTier, hexp]
        show (alookup
          (calculateTiers tree.nodes (buildNodeMap tree.nodes)).tiers
          N.id).getD 1 = vN
        rw [htN]
        rfl
      have hcpTier : (computeNode
          (calculateTiers tree.nodes (buildNodeMap tree.nodes)).tiers
          (buildDependentsMap tree.nodes) P).computedTier = w := by
        rw [computeNode_computedTier]
        cases htP : P.tier with
        | none =>
          show (alookup
            (calculateTiers tree.nodes (buildNodeMap tree.nodes)).tiers
            P.id).getD 1 = w
          rw [hw]
          rfl
        | some tp =>
          obtain ⟨nd2, hndm2, hdisj2⟩ := hgood P.id w hw
          rw [hPm] at hndm2
          injection hndm2 with h6
          subst h6
          rcases hdisj2 with hx2 | ⟨hx2, _, _⟩
          · rw [htP] at hx2
            exact Option.some_injective Nat hx2
          · rw [htP] at hx2
            cases hx2
      rw [hcnTier, hcpTier]
      exact hle

/-- The chain tree with an explicit-tier violation: node `n` has
prerequisite `p` but declares explicit tier 1, so its computed tier is 1
even though `p` has computed tier 1. -/
def claim2CexTree : TechTree :=
  { name := "cex"
    nodes := [ { id := "p", name := "p" },
               { id := "n", name := "n", tier := some 1,
                 prerequisites := ["p"] } ] }

/-- C2 counterexample: `claim2CexTree` is acyclic, `p` is a prerequisite of
`n` and distinct from it, yet `computedTier(n) = 1 < computedTier(p) + 1 =
2` because `n`'s explicit tier overrides the computation. -/
theorem claim2_counterexample :
    AcyclicPrereqs claim2CexTree.nodes ∧
    (claim2CexTree.nodes.map (fun n => n.id)).Nodup ∧
    (∃ N ∈ claim2CexTree.nodes, ∃ P ∈ claim2CexTree.nodes,
      P.id ∈ N.prerequisites ∧ P.id ≠ N.id ∧
      ∃ cn ∈ (computeTechTree claim2CexTree).nodes,
        ∃ cp ∈ (computeTechTree claim2CexTree).nodes,
          cn.id = N.id ∧ cp.id = P.id ∧
          ¬ (cp.computedTier + 1 ≤ cn.computedTier)) := by
  refine ⟨?_, by decide, by decide⟩
  apply acyclicPrereqs_of_rank claim2CexTree.nodes
    (fun x => if x = "n" then 1 else 0)
  decide

/-- The node `A` of the chain tree. -/
def chainNodeA : TechNode := { id := "A", name := "A" }

/-- The node `B` of the chain tree. -/
def chainNodeB : TechNode :=
  { id := "B", name := "B", prerequisites := ["A"] }

/-- The computed form of the chain tree's node `A`. -/
def computedChainA : ComputedTechNode :=
  { id := "A", name := "A", computedTier := 1, dependents := ["B"] }

/-- The computed form of the chain tree's node `B`. -/
def computedChainB : ComputedTechNode :=
  { id := "B", name := "B", prerequisites := ["A"], computedTier := 2,
    dependents := ["C"] }

/-- Witness for C2 (amended) at the chain tree with N the node `B` and P
the node `A`. -/
theorem claim2_witness :
    computedChainB ∈ (computeTechTree chainTree).nodes ∧
    computedChainA ∈ (computeTechTree chainTree).nodes ∧
    computedChainA.computedTier + 1 ≤ computedChainB.computedTier :=
  ⟨by decide, by decide,
   claim2_amended chainTree (by decide)
     (acyclicPrereqs_of_rank chainTree.nodes
       (fun x => if x = "A" then 0 else if x = "B" then 1 else 2) (by decide))
     chainNodeB chainNodeA
     (by decide) (by decide) (by decide) (by decide) (by decide)
     computedChainB (by decide) computedChainA (by decide)
     (by decide) (by decide)⟩

/-!
## Claim C9 — `getAncestors` / `getDescendants`
-/

theorem traverseFold_nil (f : String → List String → List String)
    (acc : List String) : traverseFold f [] acc = acc := rfl

theorem traverseFold_cons (f : String → List String → List String)
    (p : String) (ps : List String) (acc : List String) :
    traverseFold f (p :: ps) acc =
      if p ∈ acc then traverseFold f ps acc
      else traverseFold f ps (f p (p :: acc)) := rfl

theorem traverseAcc_zero (m : List (String × ComputedTechNode))
    (next : ComputedTechNode → List String) (nodeId : String)
    (acc : List String) : traverseAcc m next 0 nodeId acc = acc := rfl

theorem traverseAcc_succ_none (m : List (String × ComputedTechNode))
    (next : ComputedTechNode → List String) (fuel : Nat) (nodeId : String)
    (acc : List String) (h : alookup m nodeId = none) :
    traverseAcc m next (fuel + 1) nodeId acc = acc := by
  simp only [traverseAcc, h]

theorem traverseAcc_succ_some (m : List (String × ComputedTechNode))
    (next : ComputedTechNode → List String) (fuel : Nat) (nodeId : String)
    (acc : List String) (node : ComputedTechNode)
    (h : alookup m nodeId = some node) :
    traverseAcc m next (fuel + 1) nodeId acc =
      traverseFold (fun p a => traverseAcc m next fuel p a) (next node)
        acc := by
  simp only [traverseAcc, h]

theorem traverseAcc_none (m : List (String × ComputedTechNode))
    (next : ComputedTechNode → List String) (nodeId : String)
    (h : alookup m nodeId = none) :
    ∀ fuel acc, traverseAcc m next fuel nodeId acc = acc := by
  intro fuel acc
  cases fuel with
  | zero => rfl
  | succ fuel => exact traverseAcc_succ_none m next fuel nodeId acc h

theorem traverseFold_superset (f : String → List String → List String)
    (hf : ∀ p a x, x ∈ a → x ∈ f p a) :
    ∀ (ps acc : List String) (x : String), x ∈ acc →
      x ∈ traverseFold f ps acc := by
  intro ps
  induction ps with
  | nil => intro acc x hx; exact hx
  | cons p ps ih =>
    intro acc x hx
    rw [traverseFold_cons]
    by_cases hp : p ∈ acc
    · rw [if_pos hp]
      exact ih acc x hx
    · rw [if_neg hp]
      exact ih _ x (hf p (p :: acc) x (List.mem_cons_of_mem p hx))

theorem traverseAcc_superset (m : List (String × ComputedTechNode))
    (next : ComputedTechNode → List String) :
    ∀ fuel nodeId acc x, x ∈ acc → x ∈ traverseAcc m next fuel nodeId acc := by
  intro fuel
  induction fuel with
  | zero => intro nodeId acc x hx; exact hx
  | succ fuel ih =>
    intro nodeId acc x hx
    cases h : alookup m nodeId with
    | none =>
      rw [traverseAcc_succ_none m next fuel nodeId acc h]
      exact hx
    | some node =>
      rw [traverseAcc_succ_some m next fuel nodeId acc node h]
      exact traverseFold_superset _ (fun p a y hy => ih p a y hy)
        (next node) acc x hx

theorem alookup_eq_none_iff {β : Type} (m : List (String × β)) (k : String) :
    alookup m k = none ↔ k ∉ m.map Prod.fst := by
  induction m with
  | nil => simp [alookup]
  | cons kv rest ih =>
    obtain ⟨k', v⟩ := kv
    by_cases h : k' = k
    · subst h
      simp [alookup]
    · simp only [alookup, if_neg h, List.map_cons, List.mem_cons]
      rw [ih]
      constructor
      · intro hk hc
        rcases hc with hc1 | hc2
        · exact h hc1.symm
        · exact hk hc2
      · intro hk hc
        exact hk (Or.inr hc)

theorem keysOf_aset {β : Type} (m : List (String × β)) (k : String) (v : β) :
    (aset m k v).map Prod.fst =
      if k ∈ m.map Prod.fst then m.map Prod.fst
      else m.map Prod.fst ++ [k] := by
  induction m with
  | nil => simp [aset]
  | cons kv rest ih =>
    obtain ⟨k', v'⟩ := kv
    by_cases h : k' = k
    · subst h
      simp [aset]
    · simp only [aset, if_neg h, List.map_cons]
      rw [ih]
      by_cases h2 : k ∈ rest.map Prod.fst
      · rw [if_pos h2, if_pos (List.mem_cons_of_mem _ h2)]
      · rw [if_neg h2, if_neg ?_]
        · rfl
        · intro hc
          rcases List.mem_cons.mp hc with hc1 | hc2
          · exact h hc1.symm
          · exact h2 hc2

theorem keysOf_aset_nodup {β : Type} (m : List (String × β)) (k : String)
    (v : β) (h : (m.map Prod.fst).Nodup) :
    ((aset m k v).map Prod.fst).Nodup := by
  rw [keysOf_aset]
  by_cases h2 : k ∈ m.map Prod.fst
  · rw [if_pos h2]
    exact h
  · rw [if_neg h2]
    simp [List.nodup_append, h, h2]

theorem keysOf_aset_length {β : Type} (m : List (String × β)) (k : String)
    (v : β) :
    ((aset m k v).map Prod.fst).length ≤ (m.map Prod.fst).length + 1 := by
  rw [keysOf_aset]
  by_cases h2 : k ∈ m.map Prod.fst
  · rw [if_pos h2]
    omega
  · rw [if_neg h2]
    simp

theorem buildCNodeMap_keys (tree : ComputedTechTree) :
    ((buildCNodeMap tree).map Prod.fst).Nodup ∧
    ((buildCNodeMap tree).map Prod.fst).length ≤ tree.nodes.length := by
  have key : ∀ (l : List ComputedTechNode)
      (init : List (String × ComputedTechNode)),
      (init.map Prod.fst).Nodup →
      ((l.foldl (fun m n => aset m n.id n) init).map Prod.fst).Nodup ∧
      ((l.foldl (fun m n => aset m n.id n) init).map Prod.fst).length ≤
        (init.map Prod.fst).length + l.length := by
    intro l
    induction l with
    | nil => intro init h; exact ⟨h, Nat.le_add_right _ 0⟩
    | cons n ns ih =>
      intro init h
      simp only [List.foldl_cons]
      have h2 := ih (aset init n.id n) (keysOf_aset_nodup init n.id n h)
      refine ⟨h2.1, ?_⟩
      have h3 := keysOf_aset_length init n.id n
      have h4 := h2.2
      simp only [List.length_cons]
      omega
  have h := key tree.nodes [] (by simp)
  exact ⟨h.1, by simpa using h.2⟩

theorem buildCNodeMap_mem (tree : ComputedTechTree) (k : String)
    (cn : ComputedTechNode) (h : alookup (buildCNodeMap tree) k = some cn) :
    cn ∈ tree.nodes ∧ cn.id = k := by
  rcases alookup_foldl_aset_mem (fun n : ComputedTechNode => n.id)
    (fun n => n) tree.nodes [] k cn h with h2 | ⟨x, hx, hfx, hgx⟩
  · simp [alookup] at h2
  · exact ⟨hgx ▸ hx, hgx ▸ hfx⟩

theorem buildCNodeMap_none (tree : ComputedTechTree) (k : String)
    (h : ∀ n ∈ tree.nodes, n.id ≠ k) :
    alookup (buildCNodeMap tree) k = none := by
  rw [buildCNodeMap, alookup_foldl_aset_of_forall_ne
    (fun n : ComputedTechNode => n.id) (fun n => n) tree.nodes [] k h]
  rfl

theorem length_filter_not_mem_mono (keys acc acc2 : List String)
    (hsub : ∀ x ∈ acc, x ∈ acc2) :
    (keys.filter (fun x => decide (x ∉ acc2))).length ≤
      (keys.filter (fun x => decide (x ∉ acc))).length := by
  induction keys with
  | nil => exact le_refl 0
  | cons k ks ih =>
    rw [filter_decide_cons, filter_decide_cons]
    by_cases h2 : k ∈ acc2
    · rw [if_neg (by simp [h2])]
      by_cases h1 : k ∈ acc
      · rw [if_neg (by simp [h1])]
        exact ih
      · rw [if_pos h1, List.length_cons]
        omega
    · have h1 : k ∉ acc := fun hk => h2 (hsub k hk)
      rw [if_pos h2, if_pos h1, List.length_cons, List.length_cons]
      omega

/-- Fuel-stability of `traverse`: any two sufficient fuels give the same
result, where "sufficient" means strictly more than the number of map keys
not yet visited.  This holds with no acyclicity assumption: the visited set
bounds the recursion depth even on cyclic graphs. -/
theorem traverseAcc_stable (m : List (String × ComputedTechNode))
    (next : ComputedTechNode → List String)
    (hknd : (m.map Prod.fst).Nodup) :
    ∀ fuel1 fuel2 nodeId acc,
      ((m.map Prod.fst).filter (fun x => decide (x ∉ acc))).length < fuel1 →
      ((m.map Prod.fst).filter (fun x => decide (x ∉ acc))).length < fuel2 →
      traverseAcc m next fuel1 nodeId acc =
        traverseAcc m next fuel2 nodeId acc := by
  intro fuel1
  induction fuel1 with
  | zero =>
    intro fuel2 nodeId acc h1
    exact absurd h1 (Nat.not_lt_zero _)
  | succ fuel1 ih =>
    intro fuel2 nodeId acc h1 h2
    cases fuel2 with
    | zero => exact absurd h2 (Nat.not_lt_zero _)
    | succ fuel2 =>
      cases hl : alookup m nodeId with
      | none =>
        rw [traverseAcc_succ_none m next fuel1 nodeId acc hl,
          traverseAcc_succ_none m next fuel2 nodeId acc hl]
      | some node =>
        rw [traverseAcc_succ_some m next fuel1 nodeId acc node hl,
          traverseAcc_succ_some m next fuel2 nodeId acc node hl]
        have hfold : ∀ (ps acc2 : List String),
            ((m.map Prod.fst).filter
              (fun x => decide (x ∉ acc2))).length ≤
              ((m.map Prod.fst).filter
                (fun x => decide (x ∉ acc))).length →
            traverseFold (fun p a => traverseAcc m next fuel1 p a) ps acc2 =
            traverseFold (fun p a => traverseAcc m next fuel2 p a) ps
              acc2 := by
          intro ps
          induction ps with
          | nil => intro acc2 _; rfl
          | cons p ps ihf =>
            intro acc2 hr2
            rw [traverseFold_cons, traverseFold_cons]
            by_cases hmem : p ∈ acc2
            · rw [if_pos hmem, if_pos hmem]
              exact ihf acc2 hr2
            · rw [if_neg hmem, if_neg hmem]
              cases hk : alookup m p with
              | none =>
                rw [traverseAcc_none m next p hk fuel1 (p :: acc2),
                  traverseAcc_none m next p hk fuel2 (p :: acc2)]
                apply ihf
                calc ((m.map Prod.fst).filter
                      (fun x => decide (x ∉ p :: acc2))).length ≤
                    ((m.map Prod.fst).filter
                      (fun x => decide (x ∉ acc2))).length :=
                      length_filter_not_mem_mono _ acc2 (p :: acc2)
                        (fun x hx => List.mem_cons_of_mem p hx)
                  _ ≤ _ := hr2
              | some pn =>
                have hpk : p ∈ m.map Prod.fst := by
                  by_contra hc
                  rw [(alookup_eq_none_iff m p).mpr hc] at hk
                  cases hk
                have hcnt := length_filter_not_mem_cons (m.map Prod.fst)
                  hknd p acc2 hpk hmem
                have hstep : traverseAcc m next fuel1 p (p :: acc2) =
                    traverseAcc m next fuel2 p (p :: acc2) := by
                  apply ih
                  · omega
                  · omega
                rw [hstep]
                apply ihf
                have hsup : ∀ x ∈ acc2,
                    x ∈ traverseAcc m next fuel2 p (p :: acc2) :=
                  fun x hx => traverseAcc_superset m next fuel2 p (p :: acc2)
                    x (List.mem_cons_of_mem p hx)
                calc ((m.map Prod.fst).filter (fun x =>
                      decide (x ∉ traverseAcc m next fuel2 p
                        (p :: acc2)))).length ≤
                    ((m.map Prod.fst).filter
                      (fun x => decide (x ∉ acc2))).length :=
                      length_filter_not_mem_mono _ acc2 _ hsup
                  _ ≤ _ := hr2
        exact hfold (next node) acc (le_refl _)

/-- The edge relation actually followed by a traversal: `b` is listed by
the `next` field of the node found at `a`. -/
def nextEdge (m : List (String × ComputedTechNode))
    (next : ComputedTechNode → List String) (a b : String) : Prop :=
  ∃ nd, alookup m a = some nd ∧ b ∈ next nd

/-- Everything the traversal adds beyond the initial accumulator is
reachable from the start id along `nextEdge`. -/
theorem traverseAcc_mem_trans (m : List (String × ComputedTechNode))
    (next : ComputedTechNode → List String) :
    ∀ fuel nodeId acc x, x ∈ traverseAcc m next fuel nodeId acc →
      x ∈ acc ∨ Relation.TransGen (nextEdge m next) nodeId x := by
  intro fuel
  induction fuel with
  | zero =>
    intro nodeId acc x hx
    exact Or.inl hx
  | succ fuel ih =>
    intro nodeId acc x hx
    cases hl : alookup m nodeId with
    | none =>
      rw [traverseAcc_succ_none m next fuel nodeId acc hl] at hx
      exact Or.inl hx
    | some node =>
      rw [traverseAcc_succ_some m next fuel nodeId acc node hl] at hx
      have hfold : ∀ (ps acc2 : List String),
          (∀ p ∈ ps, nextEdge m next nodeId p) →
          ∀ y, y ∈ traverseFold
            (fun p a => traverseAcc m next fuel p a) ps acc2 →
            y ∈ acc2 ∨ Relation.TransGen (nextEdge m next) nodeId y := by
        intro ps
        induction ps with
        | nil =>
          intro acc2 _ y hy
          exact Or.inl hy
        | cons p ps ihf =>
          intro acc2 hedges y hy
          rw [traverseFold_cons] at hy
          by_cases hmem : p ∈ acc2
          · rw [if_pos hmem] at hy
            exact ihf acc2 (fun q hq => hedges q (List.mem_cons_of_mem p hq))
              y hy
          · rw [if_neg hmem] at hy
            rcases ihf _ (fun q hq => hedges q (List.mem_cons_of_mem p hq))
              y hy with h2 | h2
            · rcases ih p (p :: acc2) y h2 with h3 | h3
              · rcases List.mem_cons.mp h3 with rfl | h4
                · exact Or.inr (Relation.TransGen.single
                    (hedges y (List.mem_cons_self y ps)))
                · exact Or.inl h4
              · exact Or.inr (Relation.TransGen.trans
                  (Relation.TransGen.single
                    (hedges p (List.mem_cons_self p ps))) h3)
            · exact Or.inr h2
      exact hfold (next node) acc
        (fun p hp => ⟨node, hl, hp⟩) x hx

/-- Prerequisite-traversal edges of a computed tree are prerequisite edges
of the underlying raw tree. -/
theorem nextEdge_prereq (tree : TechTree) (a b : String)
    (h : nextEdge (buildCNodeMap (computeTechTree tree))
      (fun n => n.prerequisites) a b) : prereqEdge tree.nodes a b := by
  obtain ⟨cnd, hl, hb⟩ := h
  obtain ⟨hmem, hid⟩ := buildCNodeMap_mem (computeTechTree tree) a cnd hl
  rw [computeTechTree_nodes, List.mem_map] at hmem
  obtain ⟨n, hn, rfl⟩ := hmem
  rw [computeNode_id] at hid
  exact ⟨n, hn, hid, hb⟩

/-- Dependents-traversal edges of a computed tree are reversed prerequisite
edges of the underlying raw tree. -/
theorem nextEdge_dependents (tree : TechTree) (a b : String)
    (h : nextEdge (buildCNodeMap (computeTechTree tree))
      (fun n => n.dependents) a b) : prereqEdge tree.nodes b a := by
  obtain ⟨cnd, hl, hb⟩ := h
  obtain ⟨hmem, hid⟩ := buildCNodeMap_mem (computeTechTree tree) a cnd hl
  rw [computeTechTree_nodes, List.mem_map] at hmem
  obtain ⟨n, hn, rfl⟩ := hmem
  rw [computeNode_id] at hid
  have hb2 : b ∈ (alookup (buildDependentsMap tree.nodes) n.id).getD [] := hb
  rw [buildDependentsMap_lookup, if_pos
    (List.mem_map_of_mem (fun n => n.id) hn)] at hb2
  simp only [Option.getD_some] at hb2
  rw [depContrib_mem] at hb2
  obtain ⟨nb, hnb, hidb, hpb⟩ := hb2
  exact ⟨nb, hnb, hidb, hid ▸ hpb⟩

/-- C9: on a computed tree, `getAncestors`/`getDescendants` are
fuel-stable at the bound `nodes.length + 1` (so they terminate within a
node-count-bounded number of steps even on cyclic graphs); an unknown
`nodeId` yields the empty set; and when the prerequisite graph is acyclic,
both sets exclude `nodeId` itself and are disjoint from each other. -/
theorem claim9_theorem (tree : TechTree) (nodeId : String) :
    (∀ extra,
      traverseAcc (buildCNodeMap (computeTechTree tree))
        (fun n => n.prerequisites)
        ((computeTechTree tree).nodes.length + 1 + extra) nodeId [] =
        getAncestors nodeId (computeTechTree tree) ∧
      traverseAcc (buildCNodeMap (computeTechTree tree))
        (fun n => n.dependents)
        ((computeTechTree tree).nodes.length + 1 + extra) nodeId [] =
        getDescendants nodeId (computeTechTree tree)) ∧
    ((∀ cn ∈ (computeTechTree tree).nodes, cn.id ≠ nodeId) →
      getAncestors nodeId (computeTechTree tree) = [] ∧
      getDescendants nodeId (computeTechTree tree) = []) ∧
    (AcyclicPrereqs tree.nodes →
      nodeId ∉ getAncestors nodeId (computeTechTree tree) ∧
      nodeId ∉ getDescendants nodeId (computeTechTree tree) ∧
      (∀ x, x ∈ getAncestors nodeId (computeTechTree tree) →
        x ∉ getDescendants nodeId (computeTechTree tree))) := by
  obtain ⟨hknd, hklen⟩ := buildCNodeMap_keys (computeTechTree tree)
  have hcnt : (((buildCNodeMap (computeTechTree tree)).map
      Prod.fst).filter (fun x => decide (x ∉ ([] : List String)))).length ≤
      (computeTechTree tree).nodes.length := by
    rw [List.filter_eq_self.mpr (by intro x _; simp)]
    exact hklen
  refine ⟨?_, ?_, ?_⟩
  · intro extra
    constructor
    · exact traverseAcc_stable (buildCNodeMap (computeTechTree tree))
        (fun n => n.prerequisites) hknd
        ((computeTechTree tree).nodes.length + 1 + extra)
        ((computeTechTree tree).nodes.length + 1) nodeId []
        (by omega) (by omega)
    · exact traverseAcc_stable (buildCNodeMap (computeTechTree tree))
        (fun n => n.dependents) hknd
        ((computeTechTree tree).nodes.length + 1 + extra)
        ((computeTechTree tree).nodes.length + 1) nodeId []
        (by omega) (by omega)
  · intro hmiss
    have hnone : alookup (buildCNodeMap (computeTechTree tree)) nodeId =
        none := buildCNodeMap_none (computeTechTree tree) nodeId hmiss
    exact ⟨traverseAcc_none _ _ nodeId hnone _ [],
      traverseAcc_none _ _ nodeId hnone _ []⟩
  · intro hacyc
    have hanc : ∀ x, x ∈ getAncestors nodeId (computeTechTree tree) →
        Relation.TransGen (prereqEdge tree.nodes) nodeId x := by
      intro x hx
      rcases traverseAcc_mem_trans (buildCNodeMap (computeTechTree tree))
        (fun n => n.prerequisites) ((computeTechTree tree).nodes.length + 1)
        nodeId [] x hx with h2 | h2
      · cases h2
      · exact Relation.TransGen.mono (nextEdge_prereq tree) h2
    have hdesc : ∀ x, x ∈ getDescendants nodeId (computeTechTree tree) →
        Relation.TransGen (prereqEdge tree.nodes) x nodeId := by
      intro x hx
      rcases traverseAcc_mem_trans (buildCNodeMap (computeTechTree tree))
        (fun n => n.dependents) ((computeTechTree tree).nodes.length + 1)
        nodeId [] x hx with h2 | h2
      · cases h2
      · have h3 : Relation.TransGen
            (Function.swap (prereqEdge tree.nodes)) nodeId x :=
          Relation.TransGen.mono (fun a b h => nextEdge_dependents tree a b h)
            h2
        exact Relation.transGen_swap.mp h3
    refine ⟨?_, ?_, ?_⟩
    · intro hin
      exact hacyc nodeId (hanc nodeId hin)
    · intro hin
      exact hacyc nodeId (hdesc nodeId hin)
    · intro x hx hdx
      exact hacyc nodeId (Relation.TransGen.trans (hanc x hx) (hdesc x hdx))

/-- Witness for C9: the chain tree, with `C` for the cyclic-safety and
acyclic conjuncts and an unknown id for the empty-result conjunct. -/
theorem claim9_witness :
    (∀ extra,
      traverseAcc (buildCNodeMap (computeTechTree chainTree))
        (fun n => n.prerequisites)
        ((computeTechTree chainTree).nodes.length + 1 + extra) "C" [] =
        getAncestors "C" (computeTechTree chainTree) ∧
      traverseAcc (buildCNodeMap (computeTechTree chainTree))
        (fun n => n.dependents)
        ((computeTechTree chainTree).nodes.length + 1 + extra) "C" [] =
        getDescendants "C" (computeTechTree chainTree)) ∧
    (getAncestors "ghost" (computeTechTree chainTree) = [] ∧
      getDescendants "ghost" (computeTechTree chainTree) = []) ∧
    ("C" ∉ getAncestors "C" (computeTechTree chainTree) ∧
      "C" ∉ getDescendants "C" (computeTechTree chainTree) ∧
      (∀ x, x ∈ getAncestors "C" (computeTechTree chainTree) →
        x ∉ getDescendants "C" (computeTechTree chainTree))) :=
  ⟨(claim9_theorem chainTree "C").1,
   (claim9_theorem chainTree "ghost").2.1 (by decide),
   (claim9_theorem chainTree "C").2.2
     (acyclicPrereqs_of_rank chainTree.nodes
       (fun x => if x = "A" then 0 else if x = "B" then 1 else 2)
       (by decide))⟩

end Techtree
